import Mathlib

/-!
Spartan engine: `FileSystem` path and asset-classification utilities

A shallow embedding of `Runtime/Core/FileSystem.cpp`.

* A `std::string` is a `List Char`; positions are `Nat`, `string::npos` is `none`.
* The text files read through `std::ifstream` are a finite table `Files` from path
  strings to contents; a path that is not in the table reads as the empty text,
  as a stream that failed to open does.
* `GetIncludedFiles` recurses without a bound in the source; the embedding carries
  the allowed call depth as a `Nat` and returns `none` when it is exceeded.
* `std::filesystem::path` is modelled for the two families of implementations:
  `Platform.posix` (only `/` separates, no root names) and `Platform.windows`
  (`/` and `\` separate, drive / UNC / device root names, `:` starts an alternate
  data stream of a file name).
* The `EXTENSION_*` constants are declared in `FileSystem.h`; the embedding takes
  them as the fields of the parameter `NativeExtensions`.
-/

namespace Spartan

/-! ## `std::string` primitives -/

/-- Position of the first occurrence of `exp` in `str`: `str.find(exp)`. -/
def find (str exp : List Char) : Option Nat :=
  if exp.isPrefixOf str then some 0
  else
    match str with
    | [] => none
    | _ :: cs => (find cs exp).map (· + 1)

/-- Position of the last character of `str` that belongs to `chars`:
`str.find_last_of(chars)`. -/
def find_last_of (str chars : List Char) : Option Nat :=
  match str with
  | [] => none
  | c :: cs =>
    match find_last_of cs chars with
    | some i => some (i + 1)
    | none => if chars.contains c then some 0 else none

/-- The characters from position `pos` on: `str.substr(pos)`. -/
def substr (str : List Char) (pos : Nat) : List Char := str.drop pos

/-- At most `len` characters from position `pos` on: `str.substr(pos, len)`. -/
def substr2 (str : List Char) (pos len : Nat) : List Char := (str.drop pos).take len

/-- The lines that repeated `std::getline(stream, line)` yields for the text `source`:
the text is cut at each `'\n'`, and a text that ends in `'\n'` has no further empty line. -/
def getlines (source : List Char) : List (List Char) :=
  match source with
  | [] => []
  | c :: cs =>
    match c == '\n', getlines cs with
    | true, rest => [] :: rest
    | false, [] => [[c]]
    | false, l :: rest => (c :: l) :: rest

/-! ## `std::filesystem::path` -/

/-- The two families of `std::filesystem` implementations. -/
inductive Platform where
  | posix
  | windows
  deriving DecidableEq, Repr

/-- The directory separators of a platform, as `find_last_of` takes them. -/
def separators : Platform → List Char
  | .posix => ['/']
  | .windows => ['\\', '/']

/-- Whether `c` separates path components. -/
def isSeparator (pf : Platform) (c : Char) : Bool := (separators pf).contains c

/-- Length of the root name at the start of `s`. There is none on `posix`. On `windows`
it is a drive `X:`, a device prefix (`\\?`, `\\.` or `\??` followed by one
separator and then no further one) or a server name `\\server`. -/
def rootNameEnd (pf : Platform) (s : List Char) : Nat :=
  match pf with
  | .posix => 0
  | .windows =>
    match s with
    | [] => 0
    | [_] => 0
    | c0 :: c1 :: rest =>
      if c0.isAlpha && c1 == ':' then 2
      else if !isSeparator .windows c0 then 0
      else
        match rest with
        | [] => 0
        | c2 :: rest3 =>
          if (match rest3 with
              | [] => false
              | c3 :: rest4 =>
                isSeparator .windows c3
                  && (match rest4 with
                      | [] => true
                      | c4 :: _ => !isSeparator .windows c4)
                  && ((isSeparator .windows c1 && (c2 == '?' || c2 == '.'))
                      || (c1 == '?' && c2 == '?'))) then 3
          else if isSeparator .windows c1 && !isSeparator .windows c2 then
            3 + (rest3.takeWhile (fun c => !isSeparator .windows c)).length
          else 0

/-- The text of `s` after its last separator, the whole of `s` when it has none. -/
def afterLastSeparator (pf : Platform) (s : List Char) : List Char :=
  match find_last_of s (separators pf) with
  | some i => s.drop (i + 1)
  | none => s

/-- The value of `path(s).filename()`: what follows the last separator behind the root
name; empty when the path ends in a separator or in its root name. -/
def filename (pf : Platform) (s : List Char) : List Char :=
  afterLastSeparator pf (s.drop (rootNameEnd pf s))

/-- The part of a file name that carries the extension: on `windows` the text before
the first `:` (the rest names an alternate data stream). -/
def stripStream (pf : Platform) (name : List Char) : List Char :=
  match pf with
  | .posix => name
  | .windows => name.takeWhile (fun c => !(c == ':'))

/-- The value of `path(s).extension()`: from the last `.` of the file name on, unless
the file name is `.` or `..`, has no `.`, or has its only `.` in front. -/
def extension (pf : Platform) (s : List Char) : List Char :=
  let name := stripStream pf (filename pf s)
  if name = ['.'] ∨ name = ['.', '.'] then []
  else
    match find_last_of name ['.'] with
    | none => []
    | some 0 => []
    | some (i + 1) => name.drop (i + 1)

/-- Whether the path has a root directory: a separator right behind the root name. -/
def has_root_directory (pf : Platform) (s : List Char) : Bool :=
  match s.drop (rootNameEnd pf s) with
  | [] => false
  | c :: _ => isSeparator pf c

/-- The value of `path(s).is_absolute()`. On `windows` a drive needs a root directory,
every other root name is absolute. -/
def is_absolute (pf : Platform) (s : List Char) : Bool :=
  match pf with
  | .posix => has_root_directory .posix s
  | .windows =>
    match s with
    | c0 :: c1 :: rest =>
      if c0.isAlpha && c1 == ':' then
        (match rest with
         | [] => false
         | c2 :: _ => isSeparator .windows c2)
      else decide (rootNameEnd .windows s ≠ 0)
    | _ => false

/-- The file names of a relative path, `cur` being the name read so far: runs of
separators count once and a trailing separator yields a last, empty name. -/
def namesAux (pf : Platform) (rel cur : List Char) : List (List Char) :=
  match rel with
  | [] => [cur]
  | c :: cs =>
    if isSeparator pf c then
      if cur.isEmpty then namesAux pf cs cur else cur :: namesAux pf cs []
    else namesAux pf cs (cur ++ [c])

/-- The elements that iterating over `path(s)` yields: the root name when there is one,
the root directory (written `/`) when there is one, then the file names. -/
def elements (pf : Platform) (s : List Char) : List (List Char) :=
  let root_name := s.take (rootNameEnd pf s)
  let relative_path := (s.drop (rootNameEnd pf s)).dropWhile (isSeparator pf)
  (if root_name.isEmpty then [] else [root_name])
    ++ (if has_root_directory pf s then [['/']] else [])
    ++ (if relative_path.isEmpty then [] else namesAux pf relative_path [])

/-- The value of `path(s).generic_string()`: on `windows` each `\` becomes `/`. -/
def generic_string (pf : Platform) (s : List Char) : List Char :=
  match pf with
  | .posix => s
  | .windows => s.map (fun c => if c == '\\' then '/' else c)

/-- The value of `path(s).root_path()` in generic form: root name and root directory. -/
def root_path (pf : Platform) (s : List Char) : List Char :=
  generic_string pf (s.take (rootNameEnd pf s))
    ++ (if has_root_directory pf s then ['/'] else [])

/-! ## String helpers of `FileSystem` -/

namespace FileSystem

/-- Text of `str` before the first occurrence of `exp`, empty when there is none. -/
def GetStringBeforeExpression (str exp : List Char) : List Char :=
  match find str exp with
  | some position => substr2 str 0 position
  | none => []

/-- Text of `str` after the first occurrence of `exp`, empty when there is none. -/
def GetStringAfterExpression (str exp : List Char) : List Char :=
  match find str exp with
  | some position => substr str (position + exp.length)
  | none => []

/-- The ECMAScript atom `.` matches every character but a line terminator. -/
def matchesDot (c : Char) : Bool := !(c == '\n' || c == '\r')

/-- Backtracking match of `(.*)` followed by the literal `exp_b` at the start of `s`:
the star first takes one more character and gives it back only when the rest
cannot match. The value is the text captured by the group. -/
def matchStarThen (s exp_b : List Char) : Option (List Char) :=
  match s with
  | [] => if exp_b.isPrefixOf [] then some [] else none
  | c :: cs =>
    match (if matchesDot c then matchStarThen cs exp_b else none) with
    | some captured => some (c :: captured)
    | none => if exp_b.isPrefixOf (c :: cs) then some [] else none

/-- Match of the regular expression `exp_a(.*)exp_b` anchored at the start of `s`,
for `exp_a` and `exp_b` without regex metacharacters. -/
def matchAt (s exp_a exp_b : List Char) : Option (List Char) :=
  if exp_a.isPrefixOf s then matchStarThen (s.drop exp_a.length) exp_b else none

/-- The search `regex_search(str, m, regex(exp_a + "(.*)" + exp_b))`: the match at the
leftmost position that has one; the value is the sub-match `m[1]`. -/
def regex_search (str exp_a exp_b : List Char) : Option (List Char) :=
  match matchAt str exp_a exp_b with
  | some captured => some captured
  | none =>
    match str with
    | [] => none
    | _ :: cs => regex_search cs exp_a exp_b

/-- Text between `exp_a` and `exp_b` in `str`, the whole of `str` when the pattern
`exp_a(.*)exp_b` does not occur. The two expressions are literal texts, as they
are at the call site in `GetIncludedFiles`. -/
def GetStringBetweenExpressions (str exp_a exp_b : List Char) : List Char :=
  match regex_search str exp_a exp_b with
  | some captured => captured
  | none => str

/-- The directory part of `path`: everything up to and including the last `\` or `/`. -/
def GetDirectoryFromFilePath (path : List Char) : List Char :=
  match find_last_of path ['\\', '/'] with
  | some last_index => substr2 path 0 (last_index + 1)
  | none => []

/-! ## Include resolution -/

/-- The text files of the machine: path and content. -/
abbrev Files := List (List Char × List Char)

/-- The text read from `file_path` through `ifstream`; empty when the file cannot be
opened. -/
def readFile (fs : Files) (file_path : List Char) : List Char :=
  (fs.lookup file_path).getD []

/-- The include marker searched for by `GetIncludedFiles`. -/
def directive_exp : List Char := "#include \"".toList

/-- The first loop of `GetIncludedFiles`: one path for each line that contains the
marker, in line order. -/
def scanIncludes (directory : List Char) (lines : List (List Char)) : List (List Char) :=
  match lines with
  | [] => []
  | include_directive :: rest =>
    if (find include_directive directive_exp).isSome then
      (directory ++ GetStringBetweenExpressions include_directive directive_exp ['"'])
        :: scanIncludes directory rest
    else scanIncludes directory rest

/-- The second loop of `GetIncludedFiles`, over the copy of the direct includes:
`recurse` is the recursive call, `file_paths` the list being extended. -/
def resolveNested (fs : Files) (recurse : List Char → Option (List (List Char)))
    (file_paths_copy : List (List Char)) (file_paths : List (List Char)) :
    Option (List (List Char)) :=
  match file_paths_copy with
  | [] => some file_paths
  | _file_path :: rest =>
    if (find (readFile fs _file_path) directive_exp).isSome then
      match recurse _file_path with
      | some new_includes => resolveNested fs recurse rest (file_paths ++ new_includes)
      | none => none
    else resolveNested fs recurse rest file_paths

/-- The include resolver, `depth` being the number of nested calls that are still
allowed: `none` when the calls nest deeper. -/
def GetIncludedFiles (depth : Nat) (fs : Files) (file_path : List Char) :
    Option (List (List Char)) :=
  match depth with
  | 0 => none
  | depth + 1 =>
    let source := readFile fs file_path
    let directory := GetDirectoryFromFilePath file_path
    if (find source directive_exp).isNone then some []
    else
      let file_paths := scanIncludes directory (getlines source)
      resolveNested fs (GetIncludedFiles depth fs) file_paths file_paths

/-! ## Supported formats -/

/-- The table of `Initialize`. -/
def m_supportedImageFormats : List (List Char) :=
  [".jpg", ".png", ".bmp", ".tga", ".dds", ".exr", ".raw", ".gif", ".hdr", ".ico", ".iff",
   ".jng", ".jpeg", ".koala", ".kodak", ".mng", ".pcx", ".pbm", ".pgm", ".ppm", ".pfm",
   ".pict", ".psd", ".raw", ".sgi", ".targa", ".tiff", ".tif", ".wbmp", ".webp", ".xbm",
   ".xpm"].map String.toList

/-- The table of `Initialize`. -/
def m_supportedAudioFormats : List (List Char) :=
  [".aiff", ".asf", ".asx", ".dls", ".flac", ".fsb", ".it", ".m3u", ".midi", ".mod", ".mp2",
   ".mp3", ".ogg", ".pls", ".s3m", ".vag", ".wav", ".wax", ".wma", ".xm",
   ".xma"].map String.toList

/-- The table of `Initialize`. -/
def m_supportedModelFormats : List (List Char) :=
  [".3ds", ".obj", ".fbx", ".blend", ".dae", ".gltf", ".lwo", ".c4d", ".ase", ".dxf", ".hmp",
   ".md2", ".md3", ".md5", ".mdc", ".mdl", ".nff", ".ply", ".stl", ".x", ".smd", ".lxo",
   ".lws", ".ter", ".ac3d", ".ms3d", ".cob", ".q3bsp", ".xgl", ".csm", ".bvh", ".b3d",
   ".ndo"].map String.toList

/-- The table of `Initialize`. -/
def m_supportedShaderFormats : List (List Char) := [".hlsl"].map String.toList

/-- The table of `Initialize`. -/
def m_supportedScriptFormats : List (List Char) := [".as"].map String.toList

/-- The table of `Initialize`. -/
def m_supportedFontFormats : List (List Char) :=
  [".ttf", ".ttc", ".cff", ".woff", ".otf", ".otc", ".pfa", ".pfb", ".fnt", ".bdf",
   ".pfr"].map String.toList

/-- The engine extensions `EXTENSION_*` of `FileSystem.h`. -/
structure NativeExtensions where
  EXTENSION_WORLD : List Char
  EXTENSION_MATERIAL : List Char
  EXTENSION_MODEL : List Char
  EXTENSION_PREFAB : List Char
  EXTENSION_SHADER : List Char
  EXTENSION_FONT : List Char
  EXTENSION_TEXTURE : List Char
  EXTENSION_MESH : List Char
  EXTENSION_AUDIO : List Char

/-- Each character through `std::toupper` in the default locale. -/
def ConvertToUppercase (lower : List Char) : List Char := lower.map Char.toUpper

/-! ## Path decomposition -/

/-- The file name of `path`, empty when it has none. -/
def GetFileNameFromFilePath (pf : Platform) (path : List Char) : List Char :=
  if (filename pf path).isEmpty then [] else generic_string pf (filename pf path)

/-- The file name of `path` up to its last `.`, empty when it has no `.`. -/
def GetFileNameNoExtensionFromFilePath (pf : Platform) (path : List Char) : List Char :=
  let file_name := GetFileNameFromFilePath pf path
  match find_last_of file_name ['.'] with
  | some last_index => substr2 file_name 0 last_index
  | none => []

/-- Directory followed by the file name without its extension. -/
def GetFilePathWithoutExtension (pf : Platform) (path : List Char) : List Char :=
  GetDirectoryFromFilePath path ++ GetFileNameNoExtensionFromFilePath pf path

/-- The extension of `path`, empty when it has none. -/
def GetExtensionFromFilePath (pf : Platform) (path : List Char) : List Char :=
  if (extension pf path).isEmpty then [] else generic_string pf (extension pf path)

/-! ## Classification -/

/-- The loop shared by the supported-format predicates: some format of the table is the
extension itself or its upper-case form. -/
def matchesFormat (extension : List Char) (supportedFormats : List (List Char)) : Bool :=
  match supportedFormats with
  | [] => false
  | format :: rest =>
    if extension == format || extension == ConvertToUppercase format then true
    else matchesFormat extension rest

def IsSupportedAudioFile (pf : Platform) (path : List Char) : Bool :=
  matchesFormat (GetExtensionFromFilePath pf path) m_supportedAudioFormats

def IsSupportedImageFile (pf : Platform) (ext : NativeExtensions) (path : List Char) : Bool :=
  if matchesFormat (GetExtensionFromFilePath pf path) m_supportedImageFormats then true
  else if GetExtensionFromFilePath pf path == ext.EXTENSION_TEXTURE then true
  else false

def IsSupportedModelFile (pf : Platform) (path : List Char) : Bool :=
  matchesFormat (GetExtensionFromFilePath pf path) m_supportedModelFormats

def IsSupportedShaderFile (pf : Platform) (path : List Char) : Bool :=
  matchesFormat (GetExtensionFromFilePath pf path) m_supportedShaderFormats

def IsSupportedFontFile (pf : Platform) (path : List Char) : Bool :=
  matchesFormat (GetExtensionFromFilePath pf path) m_supportedFontFormats

def IsEngineScriptFile (pf : Platform) (path : List Char) : Bool :=
  matchesFormat (GetExtensionFromFilePath pf path) m_supportedScriptFormats

/-- The engine-native form of `path`: the first category that accepts it, in the order
audio, image, model, font, shader, replaces the extension; otherwise `path` itself. -/
def NativizeFilePath (pf : Platform) (ext : NativeExtensions) (path : List Char) : List Char :=
  let file_path_no_ext := GetFilePathWithoutExtension pf path
  if IsSupportedAudioFile pf path then file_path_no_ext ++ ext.EXTENSION_AUDIO
  else if IsSupportedImageFile pf ext path then file_path_no_ext ++ ext.EXTENSION_TEXTURE
  else if IsSupportedModelFile pf path then file_path_no_ext ++ ext.EXTENSION_MODEL
  else if IsSupportedFontFile pf path then file_path_no_ext ++ ext.EXTENSION_FONT
  else if IsSupportedShaderFile pf path then file_path_no_ext ++ ext.EXTENSION_SHADER
  else path

/-! ## Directory listings -/

/-- What `status()` reports for a directory entry. -/
inductive FileType where
  | regular
  | directory
  | other
  deriving DecidableEq, Repr

/-- An entry met by `directory_iterator`: its status and the outcome of
`path().string()`, `none` when the conversion throws `system_error`. -/
structure DirectoryEntry where
  status : FileType
  path : Option (List Char)

/-- The loop of `GetDirectoriesInDirectory` over the entries of the directory. -/
def directoriesLoop (entries : List DirectoryEntry) : List (List Char) :=
  match entries with
  | [] => []
  | it :: rest =>
    if it.status ≠ FileType.directory then directoriesLoop rest
    else
      let path : List Char :=
        match it.path with
        | some s => s
        | none => []
      if !path.isEmpty then
        (path.map (fun c => if c == '\\' then '/' else c)) :: directoriesLoop rest
      else directoriesLoop rest

/-- The loop of `GetFilesInDirectory` over the entries of the directory. -/
def filesLoop (entries : List DirectoryEntry) : List (List Char) :=
  match entries with
  | [] => []
  | it :: rest =>
    if it.status ≠ FileType.regular then filesLoop rest
    else
      match it.path with
      | some s => s :: filesLoop rest
      | none => filesLoop rest

/-- The sub-directories of `path`; `ls` gives the entries of each directory in
iteration order. -/
def GetDirectoriesInDirectory (ls : List Char → List DirectoryEntry) (path : List Char) :
    List (List Char) :=
  directoriesLoop (ls path)

/-- The regular files of `path`; `ls` gives the entries of each directory in iteration
order. -/
def GetFilesInDirectory (ls : List Char → List DirectoryEntry) (path : List Char) :
    List (List Char) :=
  filesLoop (ls path)

/-! ## Relative paths -/

/-- The separator that `operator/=` inserts. -/
def preferred_separator : Platform → Char
  | .posix => '/'
  | .windows => '\\'

/-- The value of `filesystem::absolute(s)` for the working directory `cwd`: an absolute
path is kept (it is taken free of `.` and `..` elements). -/
def absolute (pf : Platform) (cwd s : List Char) : List Char :=
  if is_absolute pf s then s else cwd ++ [preferred_separator pf] ++ s

/-- The statement `result /= name` for a file name `name`. -/
def appendName (pf : Platform) (result name : List Char) : List Char :=
  if result.isEmpty then name
  else
    match result.getLast? with
    | some c => if isSeparator pf c then result ++ name
                else result ++ [preferred_separator pf] ++ name
    | none => name

/-- The loop that advances both iterators while their elements agree; the value is what
is left of the two paths. The source compares the two elements before it tests the
iterators against `end()`, which is undefined once a path is exhausted (one path
being a prefix of the other); the embedding stops there and does not describe that
case. -/
def diverge (itr_path itr_relative_to : List (List Char)) :
    List (List Char) × List (List Char) :=
  match itr_path, itr_relative_to with
  | a :: p, b :: r => if a == b then diverge p r else (a :: p, b :: r)
  | p, r => (p, r)

/-- The path of `path` relative to the working directory `cwd`. -/
def GetRelativePath (pf : Platform) (cwd path : List Char) : List Char :=
  if !is_absolute pf path then path
  else
    let p := absolute pf cwd path
    let r := absolute pf cwd cwd
    if root_path pf p ≠ root_path pf r then generic_string pf p
    else
      let (itr_path, itr_relative_to) := diverge (elements pf p) (elements pf r)
      let result : List Char :=
        match itr_relative_to with
        | [] => []
        | _ :: rest => rest.foldl (fun acc _ => appendName pf acc ['.', '.']) []
      generic_string pf (itr_path.foldl (appendName pf) result)

/-! ## Engine files and filters -/

def IsEnginePrefabFile (pf : Platform) (ext : NativeExtensions) (path : List Char) : Bool :=
  GetExtensionFromFilePath pf path == ext.EXTENSION_PREFAB

def IsEngineModelFile (pf : Platform) (ext : NativeExtensions) (path : List Char) : Bool :=
  GetExtensionFromFilePath pf path == ext.EXTENSION_MODEL

def IsEngineMaterialFile (pf : Platform) (ext : NativeExtensions) (path : List Char) : Bool :=
  GetExtensionFromFilePath pf path == ext.EXTENSION_MATERIAL

def IsEngineMeshFile (pf : Platform) (ext : NativeExtensions) (path : List Char) : Bool :=
  GetExtensionFromFilePath pf path == ext.EXTENSION_MESH

def IsEngineSceneFile (pf : Platform) (ext : NativeExtensions) (path : List Char) : Bool :=
  GetExtensionFromFilePath pf path == ext.EXTENSION_WORLD

def IsEngineTextureFile (pf : Platform) (ext : NativeExtensions) (path : List Char) : Bool :=
  GetExtensionFromFilePath pf path == ext.EXTENSION_TEXTURE

def IsEngineAudioFile (pf : Platform) (ext : NativeExtensions) (path : List Char) : Bool :=
  GetExtensionFromFilePath pf path == ext.EXTENSION_AUDIO

def IsEngineShaderFile (pf : Platform) (ext : NativeExtensions) (path : List Char) : Bool :=
  GetExtensionFromFilePath pf path == ext.EXTENSION_SHADER

/-- Whether `path` is a file of the engine: a script or a file of one of the native
categories. -/
def IsEngineFile (pf : Platform) (ext : NativeExtensions) (path : List Char) : Bool :=
  IsEngineScriptFile pf path
    || IsEnginePrefabFile pf ext path
    || IsEngineModelFile pf ext path
    || IsEngineMaterialFile pf ext path
    || IsEngineMeshFile pf ext path
    || IsEngineSceneFile pf ext path
    || IsEngineTextureFile pf ext path
    || IsEngineAudioFile pf ext path
    || IsEngineShaderFile pf ext path

/-- The paths of `paths` that are supported images, by the loop of the source. -/
def GetSupportedImageFilesFromPaths (pf : Platform) (ext : NativeExtensions)
    (paths : List (List Char)) : List (List Char) :=
  match paths with
  | [] => []
  | path :: rest =>
    if !IsSupportedImageFile pf ext path then GetSupportedImageFilesFromPaths pf ext rest
    else path :: GetSupportedImageFilesFromPaths pf ext rest

/-- The paths of `paths` that are supported audio files, by the loop of the source. -/
def GetSupportedAudioFilesFromPaths (pf : Platform) (paths : List (List Char)) :
    List (List Char) :=
  match paths with
  | [] => []
  | path :: rest =>
    if !IsSupportedAudioFile pf path then GetSupportedAudioFilesFromPaths pf rest
    else path :: GetSupportedAudioFilesFromPaths pf rest

/-- The paths of `paths` that are scripts, by the loop of the source. -/
def GetSupportedScriptFilesFromPaths (pf : Platform) (paths : List (List Char)) :
    List (List Char) :=
  match paths with
  | [] => []
  | path :: rest =>
    if !IsEngineScriptFile pf path then GetSupportedScriptFilesFromPaths pf rest
    else path :: GetSupportedScriptFilesFromPaths pf rest

/-- The paths of `paths` that are supported models, by the loop of the source. -/
def GetSupportedModelFilesFromPaths (pf : Platform) (paths : List (List Char)) :
    List (List Char) :=
  match paths with
  | [] => []
  | path :: rest =>
    if !IsSupportedModelFile pf path then GetSupportedModelFilesFromPaths pf rest
    else path :: GetSupportedModelFilesFromPaths pf rest

/-- The supported files of the directory `path`: its images, then its scripts, then its
models, each appended in turn to `supportedFiles`. -/
def GetSupportedFilesInDirectory (pf : Platform) (ext : NativeExtensions)
    (ls : List Char → List DirectoryEntry) (path : List Char) : List (List Char) :=
  let filesInDirectory := GetFilesInDirectory ls path
  let imagesInDirectory := GetSupportedImageFilesFromPaths pf ext filesInDirectory
  let scriptsInDirectory := GetSupportedScriptFilesFromPaths pf filesInDirectory
  let modelsInDirectory := GetSupportedModelFilesFromPaths pf filesInDirectory
  let supportedFiles : List (List Char) := []
  let supportedFiles := imagesInDirectory.foldl (fun acc x => acc ++ [x]) supportedFiles
  let supportedFiles := scriptsInDirectory.foldl (fun acc x => acc ++ [x]) supportedFiles
  modelsInDirectory.foldl (fun acc x => acc ++ [x]) supportedFiles

/-! ## Vocabulary of the statements about include resolution -/

/-- The direct includes of `file_path`: the value of `file_paths` in `GetIncludedFiles`
when the scan of the lines is over (empty at the early exit). -/
def directIncludes (fs : Files) (file_path : List Char) : List (List Char) :=
  if (find (readFile fs file_path) directive_exp).isNone then []
  else scanIncludes (GetDirectoryFromFilePath file_path) (getlines (readFile fs file_path))

/-- The include graph: `f` includes `d` directly. -/
def Includes (fs : Files) (f d : List Char) : Prop := d ∈ directIncludes fs f

/-- No file that can be reached from `file_path` along include edges lies on a cycle
of include edges. -/
def Acyclic (fs : Files) (file_path : List Char) : Prop :=
  ∀ x, Relation.ReflTransGen (Includes fs) file_path x →
    ¬ Relation.TransGen (Includes fs) x x

/-- The call `GetIncludedFiles(file_path)` returns `result`: it does so at some call
depth and at every greater one. -/
def Returns (fs : Files) (file_path : List Char) (result : List (List Char)) : Prop :=
  ∃ depth, ∀ d, depth ≤ d → GetIncludedFiles d fs file_path = some result

/-- A ranking of the files is respected by the include edges of every file of `fs`:
a check that can be evaluated and implies that the include graph has no cycle. -/
def rankDecreases (fs : Files) (rank : List Char → Nat) : Bool :=
  fs.all (fun entry => (directIncludes fs entry.1).all (fun d => decide (rank d < rank entry.1)))

/-- The files of the example: `a.txt` includes `b.txt` and `c.txt`, `b.txt` includes
`d.txt`, `c.txt` and `d.txt` include nothing. -/
def exampleFiles : Files :=
  [("a.txt".toList, "#include \"b.txt\"\n#include \"c.txt\"\n".toList),
   ("b.txt".toList, "#include \"d.txt\"\n".toList),
   ("c.txt".toList, "int c;\n".toList),
   ("d.txt".toList, "int d;\n".toList)]

/-- A ranking of the files of the example. -/
def exampleRank (file_path : List Char) : Nat :=
  if file_path = "a.txt".toList then 2
  else if file_path = "b.txt".toList then 1
  else 0

/-! ## Vocabulary of the statements about path decomposition -/

/-- The edges that the recursion of `GetIncludedFiles` follows: a direct include that
itself holds the marker. -/
def Recurses (fs : Files) (f d : List Char) : Prop :=
  Includes fs f d ∧ (find (readFile fs d) directive_exp).isSome = true

/-! ## Vocabulary of the statements about classification -/

/-- Modelled from the spec: the values of the `EXTENSION_*` constants of `FileSystem.h`.
The specification gives `.native_tex` for textures and `.native_model` for models;
the other categories follow that pattern. The statements take the constants as a
parameter and use this assignment as their instance. -/
def sampleExtensions : NativeExtensions where
  EXTENSION_WORLD := ".native_world".toList
  EXTENSION_MATERIAL := ".native_material".toList
  EXTENSION_MODEL := ".native_model".toList
  EXTENSION_PREFAB := ".native_prefab".toList
  EXTENSION_SHADER := ".native_shader".toList
  EXTENSION_FONT := ".native_font".toList
  EXTENSION_TEXTURE := ".native_tex".toList
  EXTENSION_MESH := ".native_mesh".toList
  EXTENSION_AUDIO := ".native_audio".toList

/-- The categories that `nativize` tests, in the order of the specification, each with
its predicate and its native extension. -/
def nativizeCategories (pf : Platform) (ext : NativeExtensions) :
    List ((List Char → Bool) × List Char) :=
  [(IsSupportedAudioFile pf, ext.EXTENSION_AUDIO),
   (IsSupportedImageFile pf ext, ext.EXTENSION_TEXTURE),
   (IsSupportedModelFile pf, ext.EXTENSION_MODEL),
   (IsSupportedFontFile pf, ext.EXTENSION_FONT),
   (IsSupportedShaderFile pf, ext.EXTENSION_SHADER)]

/-- The operation `nativize` in the words of the specification: the first category of
the fixed order that accepts `path` puts its native extension onto
`path_without_extension(path)`; without a match `path` is returned unchanged. -/
def nativizeSpec (pf : Platform) (ext : NativeExtensions) (path : List Char) : List Char :=
  match (nativizeCategories pf ext).find? (fun category => category.1 path) with
  | some category => GetFilePathWithoutExtension pf path ++ category.2
  | none => path

/-- The six categories of `Initialize`: the table, the extensions that the predicate
accepts besides the table, and the predicate. -/
def supportedCategories (pf : Platform) (ext : NativeExtensions) :
    List (List (List Char) × List (List Char) × (List Char → Bool)) :=
  [(m_supportedImageFormats, [ext.EXTENSION_TEXTURE], IsSupportedImageFile pf ext),
   (m_supportedAudioFormats, [], IsSupportedAudioFile pf),
   (m_supportedModelFormats, [], IsSupportedModelFile pf),
   (m_supportedShaderFormats, [], IsSupportedShaderFile pf),
   (m_supportedScriptFormats, [], IsEngineScriptFile pf),
   (m_supportedFontFormats, [], IsSupportedFontFile pf)]

/-- A well-formed path. On `posix` it is written with `/` only. On `windows` its file
name holds no `:` and a root name, when there is one, is followed by a root
directory (the path is absolute or plainly relative, not relative to a drive). -/
def wellFormedPath (pf : Platform) (p : List Char) : Bool :=
  match pf with
  | .posix => !p.contains '\\'
  | .windows =>
    !(filename .windows p).contains ':'
      && (rootNameEnd .windows p == 0 || has_root_directory .windows p)

/-- The six tables of `Initialize`, in the order image, audio, model, shader, script,
font. -/
def supportedTables : List (List (List Char)) :=
  [m_supportedImageFormats, m_supportedAudioFormats, m_supportedModelFormats,
   m_supportedShaderFormats, m_supportedScriptFormats, m_supportedFontFormats]

/-- The eight native categories: the predicate of each and its one native extension, in
the order prefab, model, material, mesh, world, texture, audio, shader. -/
def engineCategories (pf : Platform) (ext : NativeExtensions) :
    List ((List Char → Bool) × List Char) :=
  [(IsEnginePrefabFile pf ext, ext.EXTENSION_PREFAB),
   (IsEngineModelFile pf ext, ext.EXTENSION_MODEL),
   (IsEngineMaterialFile pf ext, ext.EXTENSION_MATERIAL),
   (IsEngineMeshFile pf ext, ext.EXTENSION_MESH),
   (IsEngineSceneFile pf ext, ext.EXTENSION_WORLD),
   (IsEngineTextureFile pf ext, ext.EXTENSION_TEXTURE),
   (IsEngineAudioFile pf ext, ext.EXTENSION_AUDIO),
   (IsEngineShaderFile pf ext, ext.EXTENSION_SHADER)]

/-- Some file that can be reached from `file_path` along include edges lies on a cycle
of include edges. -/
def ReachesCycle (fs : Files) (file_path : List Char) : Prop :=
  ∃ x, Relation.ReflTransGen (Includes fs) file_path x ∧ Relation.TransGen (Includes fs) x x

/-- A file that includes itself. -/
def selfIncludeFiles : Files :=
  [("a.txt".toList, "#include \"a.txt\"\n".toList)]

/-- Two files that include each other. -/
def mutualIncludeFiles : Files :=
  [("a.txt".toList, "#include \"b.txt\"\n".toList),
   ("b.txt".toList, "#include \"a.txt\"\n".toList)]

/-- No extension of `t1`, and no upper-case form of one, is an extension of `t2` or the
upper-case form of one. -/
def exclusiveTables (t1 t2 : List (List Char)) : Bool :=
  t1.all (fun e1 => t2.all (fun e2 =>
    e1 != e2 && e1 != ConvertToUppercase e2
      && ConvertToUppercase e1 != e2
      && ConvertToUppercase e1 != ConvertToUppercase e2))

/-- A shader that includes a file of a sub-directory, which includes a file next to
itself. -/
def shaderFiles : Files :=
  [("shaders/main.hlsl".toList, "#include \"common/lights.hlsl\"\nfloat4 main();\n".toList),
   ("shaders/common/lights.hlsl".toList, "#include \"brdf.hlsl\"\n".toList),
   ("shaders/common/brdf.hlsl".toList, "float brdf();\n".toList)]

/-- A ranking of the files of `shaderFiles`. -/
def shaderRank (file_path : List Char) : Nat :=
  if file_path = "shaders/main.hlsl".toList then 2
  else if file_path = "shaders/common/lights.hlsl".toList then 1
  else 0


end FileSystem

/-! ## Lemmas on texts and paths -/

theorem find_last_of_eq_none_iff (s chars : List Char) :
    find_last_of s chars = none ↔ ∀ c ∈ s, c ∉ chars := by
  induction s with
  | nil => simp [find_last_of]
  | cons a t ih =>
    unfold find_last_of
    cases h : find_last_of t chars with
    | some i =>
      constructor
      · intro h2; exact absurd h2 (by simp)
      · intro hall
        rw [ih.mpr (fun c hc => hall c (List.mem_cons_of_mem _ hc))] at h
        exact absurd h (by simp)
    | none =>
      by_cases ha : a ∈ chars
      · have : chars.contains a = true := by simpa using ha
        simp only [this, if_true]
        constructor
        · intro h2; exact absurd h2 (by simp)
        · intro hall; exact absurd ha (hall a (List.mem_cons_self _ _))
      · have : chars.contains a = false := by simpa using ha
        simp only [this]
        constructor
        · intro _ c hc
          rcases List.mem_cons.mp hc with rfl | hc
          · exact ha
          · exact ih.mp h c hc
        · intro _; rfl

theorem find_last_of_append_some (a b chars : List Char) (j : Nat)
    (h : find_last_of b chars = some j) :
    find_last_of (a ++ b) chars = some (a.length + j) := by
  induction a with
  | nil => simpa using h
  | cons x t ih =>
    simp only [List.cons_append, List.length_cons]
    unfold find_last_of
    rw [ih]
    simp only [Option.some.injEq]
    omega

theorem find_last_of_some_spec (s chars : List Char) (i : Nat)
    (h : find_last_of s chars = some i) :
    i < s.length ∧ (∃ c, s.get? i = some c ∧ c ∈ chars)
      ∧ find_last_of (s.drop (i + 1)) chars = none := by
  induction s generalizing i with
  | nil => simp [find_last_of] at h
  | cons a t ih =>
    unfold find_last_of at h
    cases ht : find_last_of t chars with
    | some j =>
      rw [ht] at h
      simp only [Option.some.injEq] at h
      subst h
      obtain ⟨h1, h2, h3⟩ := ih j ht
      refine ⟨by simp; omega, ?_, ?_⟩
      · simpa using h2
      · simpa using h3
    | none =>
      rw [ht] at h
      simp only at h
      split at h
      · rename_i hc
        simp only [Option.some.injEq] at h
        subst h
        exact ⟨by simp, ⟨a, by simp, by simpa using hc⟩, by simpa using ht⟩
      · exact absurd h (by simp)

theorem find_last_of_congr (s chars1 chars2 : List Char)
    (h : ∀ c ∈ s, (c ∈ chars1 ↔ c ∈ chars2)) :
    find_last_of s chars1 = find_last_of s chars2 := by
  induction s with
  | nil => rfl
  | cons a t ih =>
    unfold find_last_of
    have : chars1.contains a = chars2.contains a := by
      rw [Bool.eq_iff_iff]
      simpa using h a (List.mem_cons_self _ _)
    rw [ih (fun c hc => h c (List.mem_cons_of_mem _ hc)), this]

theorem isSeparator_iff_mem (pf : Platform) (c : Char) :
    isSeparator pf c = true ↔ c ∈ separators pf := by
  simp [isSeparator]

theorem drop_length_takeWhile {α : Type} (p : α → Bool) (l : List α) :
    l.drop (l.takeWhile p).length = l.dropWhile p := by
  induction l with
  | nil => rfl
  | cons a t ih =>
    by_cases h : p a = true
    · simp [List.takeWhile_cons, List.dropWhile_cons, h, ih]
    · simp [List.takeWhile_cons, List.dropWhile_cons, h]

theorem head_dropWhile_not_sep (l : List Char) (c : Char)
    (h : (l.dropWhile (fun c => !isSeparator .windows c)).head? = some c) :
    isSeparator .windows c = true := by
  induction l with
  | nil => simp at h
  | cons a t ih =>
    by_cases ha : isSeparator .windows a = true
    · simp [List.dropWhile_cons, ha] at h
      rw [← h]; exact ha
    · simp [List.dropWhile_cons, ha] at h
      exact ih h

theorem rootNameEnd_cases (s : List Char) :
    rootNameEnd .windows s = 0
    ∨ (∃ c0 rest, s = c0 :: ':' :: rest ∧ c0.isAlpha = true ∧ rootNameEnd .windows s = 2)
    ∨ (∃ c0 rest, s = c0 :: rest ∧ isSeparator .windows c0 = true
        ∧ ∀ c, (s.drop (rootNameEnd .windows s)).head? = some c →
            isSeparator .windows c = true) := by
  unfold rootNameEnd
  simp only
  match s with
  | [] => left; rfl
  | [_] => left; rfl
  | c0 :: c1 :: rest =>
    simp only
    split
    · rename_i h
      simp only [Bool.and_eq_true, beq_iff_eq] at h
      right; left
      exact ⟨c0, rest, by rw [h.2], h.1, rfl⟩
    · split
      · left; rfl
      · rename_i h0
        have h0 : isSeparator .windows c0 = true := by simpa using h0
        match rest with
        | [] => left; rfl
        | c2 :: rest3 =>
          simp only
          split
          · rename_i hdev
            right; right
            refine ⟨c0, _, rfl, h0, ?_⟩
            intro c hc
            match rest3, hdev with
            | c3 :: rest4, hdev =>
              simp only [Bool.and_eq_true] at hdev
              simp only [List.drop_succ_cons, List.drop_zero, List.head?_cons,
                Option.some.injEq] at hc
              rw [← hc]; exact hdev.1.1
          · split
            · right; right
              refine ⟨c0, _, rfl, h0, ?_⟩
              intro c hc
              have : (c0 :: c1 :: c2 :: rest3).drop
                  (3 + (rest3.takeWhile (fun c => !isSeparator .windows c)).length)
                  = rest3.dropWhile (fun c => !isSeparator .windows c) := by
                rw [← List.drop_drop]
                exact drop_length_takeWhile _ _
              rw [this] at hc
              exact head_dropWhile_not_sep _ _ hc
            · left; rfl

theorem find_last_of_split (a b chars : List Char) (c : Char) (hc : c ∈ chars)
    (hb : find_last_of b chars = none) :
    find_last_of (a ++ c :: b) chars = some a.length := by
  have h0 : find_last_of (c :: b) chars = some 0 := by
    unfold find_last_of
    rw [hb]
    have : chars.contains c = true := by simpa using hc
    simp only [this, if_true]
  simpa using find_last_of_append_some a (c :: b) chars 0 h0

theorem drop_split {α : Type} (a b : List α) (c : α) :
    (a ++ c :: b).drop (a.length + 1) = b := by
  induction a with
  | nil => rfl
  | cons x t ih => simp

theorem find_last_of_some_split (s chars : List Char) (k : Nat)
    (h : find_last_of s chars = some k) :
    ∃ a c b, s = a ++ c :: b ∧ a.length = k ∧ c ∈ chars ∧ find_last_of b chars = none
      ∧ s.take (k + 1) = a ++ [c] ∧ s.drop (k + 1) = b := by
  obtain ⟨hlt, ⟨c, hget, hc⟩, hnone⟩ := find_last_of_some_spec s chars k h
  have hs : s = s.take k ++ c :: s.drop (k + 1) := by
    have h1 : s.drop k = c :: s.drop (k + 1) := by
      rw [List.drop_eq_getElem_cons hlt]
      congr 1
      rw [List.get?_eq_getElem?, List.getElem?_eq_getElem hlt] at hget
      exact Option.some.inj hget
    conv_lhs => rw [← List.take_append_drop k s, h1]
  have hlen : (s.take k).length = k := by
    rw [List.length_take]; omega
  refine ⟨s.take k, c, s.drop (k + 1), hs, hlen, hc, hnone, ?_, rfl⟩
  conv_lhs => rw [hs]
  rw [List.take_append_eq_append_take]
  simp [hlen]

theorem afterLastSeparator_of_none (pf : Platform) (s : List Char)
    (h : find_last_of s (separators pf) = none) : afterLastSeparator pf s = s := by
  unfold afterLastSeparator
  rw [h]

theorem find_last_of_drop_none (s chars : List Char) (n : Nat)
    (h : find_last_of s chars = none) : find_last_of (s.drop n) chars = none := by
  rw [find_last_of_eq_none_iff] at h ⊢
  exact fun c hc => h c (List.mem_of_mem_drop hc)

theorem not_alpha_of_separator (c : Char) (h : c ∈ separators .windows) :
    c.isAlpha = false := by
  simp only [separators, List.mem_cons, List.mem_singleton, List.not_mem_nil, or_false] at h
  rcases h with rfl | rfl <;> decide

theorem filename_windows_of_some (s : List Char) (k : Nat)
    (h : find_last_of s (separators .windows) = some k) :
    filename .windows s = s.drop (k + 1) ∨ filename .windows s = [] := by
  obtain ⟨a, c, b, hs, hlen, hc, hb, _, hdrop⟩ := find_last_of_some_split s _ k h
  unfold filename
  by_cases hR : rootNameEnd .windows s ≤ k
  · left
    have h1 : ∀ R, R ≤ k → s.drop R = a.drop R ++ c :: b := by
      intro R hRk
      conv_lhs => rw [hs]
      exact List.drop_append_of_le_length (by omega)
    rw [h1 _ hR]
    unfold afterLastSeparator
    rw [find_last_of_split _ _ _ _ hc hb, hdrop]
    exact drop_split _ _ _
  · right
    have hR : k < rootNameEnd .windows s := by omega
    have hdropR : s.drop (rootNameEnd .windows s)
        = b.drop (rootNameEnd .windows s - (k + 1)) := by
      rw [← hdrop, List.drop_drop]
      congr 1; omega
    have hnone : find_last_of (s.drop (rootNameEnd .windows s)) (separators .windows)
        = none := by
      rw [hdropR]; exact find_last_of_drop_none _ _ _ hb
    rw [afterLastSeparator_of_none _ _ hnone]
    rcases rootNameEnd_cases s with h0 | ⟨c0, rest, hs2, halpha, h2⟩ | ⟨c0, rest, _, _, hhead⟩
    · omega
    · exfalso
      rw [h2] at hR
      rw [hs2] at hs
      match a, hlen with
      | [], _ =>
        simp only [List.nil_append, List.cons.injEq] at hs
        rw [hs.1, not_alpha_of_separator c hc] at halpha
        exact absurd halpha (by simp)
      | [x], _ =>
        simp only [List.cons_append, List.nil_append, List.cons.injEq] at hs
        rw [← hs.2.1] at hc
        revert hc; decide
      | _ :: _ :: _, hl => simp at hl; omega
    · cases hd : s.drop (rootNameEnd .windows s) with
      | nil => rfl
      | cons y t =>
        exfalso
        have hy := hhead y (by rw [hd]; rfl)
        rw [find_last_of_eq_none_iff] at hnone
        exact hnone y (by rw [hd]; exact List.mem_cons_self _ _)
          ((isSeparator_iff_mem _ _).mp hy)

theorem filename_windows_of_none (s : List Char)
    (h : find_last_of s (separators .windows) = none) :
    filename .windows s = s.drop (rootNameEnd .windows s)
    ∧ (rootNameEnd .windows s = 0
        ∨ (rootNameEnd .windows s = 2 ∧ ∃ c0 rest, s = c0 :: ':' :: rest)) := by
  constructor
  · unfold filename
    exact afterLastSeparator_of_none _ _ (find_last_of_drop_none _ _ _ h)
  · rcases rootNameEnd_cases s with h0 | ⟨c0, rest, hs2, _, h2⟩ | ⟨c0, rest, hs2, hsep, _⟩
    · exact Or.inl h0
    · exact Or.inr ⟨h2, c0, rest, hs2⟩
    · exfalso
      rw [find_last_of_eq_none_iff] at h
      exact h c0 (by rw [hs2]; exact List.mem_cons_self _ _) ((isSeparator_iff_mem _ _).mp hsep)

theorem find_last_of_posix (s : List Char) (h : '\\' ∉ s) :
    find_last_of s (separators .posix) = find_last_of s ['\\', '/'] := by
  apply find_last_of_congr
  intro c hc
  have : c ≠ '\\' := fun hcb => h (hcb ▸ hc)
  simp [separators, this]

theorem filename_of_some (pf : Platform) (s : List Char) (k : Nat)
    (hpos : pf = .posix → '\\' ∉ s) (h : find_last_of s ['\\', '/'] = some k) :
    filename pf s = s.drop (k + 1) ∨ filename pf s = [] := by
  cases pf with
  | windows => exact filename_windows_of_some s k h
  | posix =>
    left
    unfold filename afterLastSeparator
    simp only [rootNameEnd, List.drop_zero]
    rw [find_last_of_posix s (hpos rfl), h]

theorem filename_of_none (pf : Platform) (s : List Char)
    (hpos : pf = .posix → '\\' ∉ s) (h : find_last_of s ['\\', '/'] = none) :
    filename pf s = s.drop (rootNameEnd pf s)
    ∧ (rootNameEnd pf s = 0
        ∨ (pf = .windows ∧ rootNameEnd pf s = 2 ∧ ∃ c0 rest, s = c0 :: ':' :: rest)) := by
  cases pf with
  | windows =>
    obtain ⟨h1, h2⟩ := filename_windows_of_none s h
    refine ⟨h1, ?_⟩
    rcases h2 with h0 | ⟨h2, hx⟩
    · exact Or.inl h0
    · exact Or.inr ⟨rfl, h2, hx⟩
  | posix =>
    refine ⟨?_, Or.inl rfl⟩
    unfold filename afterLastSeparator
    simp only [rootNameEnd, List.drop_zero]
    rw [find_last_of_posix s (hpos rfl), h]

/-- The file name holds no `\` or `/`. -/
theorem filename_no_slash (pf : Platform) (s : List Char) (hpos : pf = .posix → '\\' ∉ s) :
    find_last_of (filename pf s) ['\\', '/'] = none := by
  cases h : find_last_of s ['\\', '/'] with
  | some k =>
    rcases filename_of_some pf s k hpos h with hf | hf
    · rw [hf]; exact (find_last_of_some_spec s _ k h).2.2
    · rw [hf]; rfl
  | none =>
    rw [(filename_of_none pf s hpos h).1]
    exact find_last_of_drop_none _ _ _ h

theorem generic_string_of_no_slash (pf : Platform) (s : List Char)
    (h : find_last_of s ['\\', '/'] = none) : generic_string pf s = s := by
  cases pf with
  | posix => rfl
  | windows =>
    unfold generic_string
    simp only
    rw [find_last_of_eq_none_iff] at h
    conv_rhs => rw [← List.map_id s]
    apply List.map_congr_left
    intro c hc
    have : c ≠ '\\' := fun hcb => h c hc (by simp [hcb])
    simp [this]

theorem find_isSome_iff_occurs (s m : List Char) : (find s m).isSome = true ↔ m <:+: s := by
  induction s with
  | nil =>
    unfold find
    by_cases h : m.isPrefixOf [] = true
    · rw [if_pos h]
      simp only [Option.isSome_some, true_iff]
      exact (List.isPrefixOf_iff_prefix.mp h).isInfix
    · rw [if_neg h]
      simp only [Option.isSome_none, Bool.false_eq_true, false_iff]
      intro hi
      apply h
      rw [List.isPrefixOf_iff_prefix]
      have := List.eq_nil_of_infix_nil hi
      rw [this]
  | cons a t ih =>
    unfold find
    by_cases h : m.isPrefixOf (a :: t) = true
    · rw [if_pos h]
      simp only [Option.isSome_some, true_iff]
      exact (List.isPrefixOf_iff_prefix.mp h).isInfix
    · rw [if_neg h]
      simp only [Option.isSome_map']
      rw [ih, List.infix_cons_iff]
      constructor
      · exact Or.inr
      · rintro (hp | hi)
        · exact absurd (List.isPrefixOf_iff_prefix.mpr hp) h
        · exact hi

theorem getlines_head_starts (s : List Char) :
    ∀ l rest, getlines s = l :: rest → l <+: s := by
  induction s with
  | nil => intro l rest h; simp [getlines] at h
  | cons c cs ih =>
    intro l rest h
    unfold getlines at h
    split at h
    · simp only [List.cons.injEq] at h
      rw [← h.1]
      exact List.nil_prefix
    · simp only [List.cons.injEq] at h
      rw [← h.1]
      exact List.prefix_append [c] cs
    · rename_i l0 rest0 _ h0
      simp only [List.cons.injEq] at h
      rw [← h.1]
      obtain ⟨u, hu⟩ := ih l0 rest0 h0
      exact ⟨u, by simp [← hu]⟩

theorem getlines_within (s : List Char) : ∀ l ∈ getlines s, l <:+: s := by
  induction s with
  | nil => intro l hl; simp [getlines] at hl
  | cons c cs ih =>
    intro l hl
    cases hg : getlines (c :: cs) with
    | nil => rw [hg] at hl; simp at hl
    | cons l1 rest1 =>
      rw [hg] at hl
      rcases List.mem_cons.mp hl with rfl | hl
      · exact (getlines_head_starts _ _ _ hg).isInfix
      · have hsub : ∀ x ∈ rest1, x ∈ getlines cs := by
          intro x hx
          unfold getlines at hg
          split at hg
          · simp only [List.cons.injEq] at hg
            rw [← hg.2] at hx; exact hx
          · simp only [List.cons.injEq] at hg
            rw [← hg.2] at hx; simp at hx
          · rename_i l0 rest0 _ h0
            simp only [List.cons.injEq] at hg
            rw [← hg.2] at hx
            rw [h0]; exact List.mem_cons_of_mem _ hx
        exact (ih l (hsub l hl)).trans (List.suffix_cons _ _).isInfix

theorem find_some_spec (str exp : List Char) :
    ∀ pos, find str exp = some pos →
      exp <+: str.drop pos ∧ ∀ j, j < pos → ¬ exp <+: str.drop j := by
  induction str with
  | nil =>
    intro pos h
    unfold find at h
    split at h
    · rename_i hp
      simp only [Option.some.injEq] at h
      subst h
      exact ⟨List.isPrefixOf_iff_prefix.mp hp, fun j hj => absurd hj (Nat.not_lt_zero j)⟩
    · simp at h
  | cons c cs ih =>
    intro pos h
    unfold find at h
    split at h
    · rename_i hp
      simp only [Option.some.injEq] at h
      subst h
      exact ⟨List.isPrefixOf_iff_prefix.mp hp, fun j hj => absurd hj (Nat.not_lt_zero j)⟩
    · rename_i hp
      simp only [Option.map_eq_some'] at h
      obtain ⟨q, hq, rfl⟩ := h
      obtain ⟨h1, h2⟩ := ih q hq
      refine ⟨by simpa using h1, ?_⟩
      intro j hj
      cases j with
      | zero =>
        intro hpre
        exact hp (List.isPrefixOf_iff_prefix.mpr (by simpa using hpre))
      | succ j =>
        simpa using h2 j (by omega)

namespace FileSystem

/-! ## Lemmas on the operations -/

theorem GetFileNameFromFilePath_eq (pf : Platform) (p : List Char) :
    GetFileNameFromFilePath pf p = filename pf p := by
  unfold GetFileNameFromFilePath
  split
  · rename_i h
    simpa using h.symm
  · cases pf with
    | posix => rfl
    | windows =>
      exact generic_string_of_no_slash _ _ (filename_no_slash _ _ (fun h => by cases h))

theorem stripStream_subset (pf : Platform) (name : List Char) :
    ∀ c ∈ stripStream pf name, c ∈ name := by
  intro c hc
  cases pf with
  | posix => exact hc
  | windows => exact List.takeWhile_subset _ hc

theorem extension_subset (pf : Platform) (p : List Char) :
    ∀ c ∈ extension pf p, c ∈ filename pf p := by
  intro c hc
  unfold extension at hc
  simp only at hc
  split at hc
  · simp at hc
  · split at hc
    · simp at hc
    · simp at hc
    · exact stripStream_subset _ _ c (List.mem_of_mem_drop hc)

theorem GetExtensionFromFilePath_eq (pf : Platform) (p : List Char) :
    GetExtensionFromFilePath pf p = extension pf p := by
  unfold GetExtensionFromFilePath
  split
  · rename_i h
    simpa using h.symm
  · cases pf with
    | posix => rfl
    | windows =>
      apply generic_string_of_no_slash
      have := filename_no_slash .windows p (fun h => by cases h)
      rw [find_last_of_eq_none_iff] at this ⊢
      exact fun c hc => this c (extension_subset _ _ c hc)

theorem extension_ne_nil (pf : Platform) (p : List Char) (h : extension pf p ≠ []) :
    ∃ i, find_last_of (stripStream pf (filename pf p)) ['.'] = some (i + 1)
      ∧ extension pf p = (stripStream pf (filename pf p)).drop (i + 1) := by
  unfold extension at h ⊢
  simp only at h ⊢
  split
  · rename_i hd; rw [if_pos hd] at h; exact absurd rfl h
  · rename_i hd
    rw [if_neg hd] at h
    split
    · rename_i hn; rw [hn] at h; exact absurd rfl h
    · rename_i hn; rw [hn] at h; exact absurd rfl h
    · rename_i i hn
      exact ⟨i, hn, rfl⟩

theorem stripStream_of_no_colon (pf : Platform) (name : List Char) (h : ':' ∉ name) :
    stripStream pf name = name := by
  cases pf with
  | posix => rfl
  | windows =>
    unfold stripStream
    simp only
    rw [List.takeWhile_eq_self_iff]
    intro c hc
    have : c ≠ ':' := fun hcb => h (hcb ▸ hc)
    simp [this]

/-- Directory and file name make up the path. -/
theorem directory_append_filename (pf : Platform) (p : List Char)
    (hw : wellFormedPath pf p = true) (hf : filename pf p ≠ []) :
    GetDirectoryFromFilePath p ++ filename pf p = p := by
  have hpos : pf = .posix → '\\' ∉ p := by
    intro hpf; subst hpf
    simpa [wellFormedPath] using hw
  unfold GetDirectoryFromFilePath
  cases h : find_last_of p ['\\', '/'] with
  | some k =>
    simp only [substr2, List.drop_zero]
    rcases filename_of_some pf p k hpos h with hk | hk
    · rw [hk]; exact List.take_append_drop _ _
    · exact absurd hk hf
  | none =>
    simp only [List.nil_append]
    obtain ⟨h1, h2⟩ := filename_of_none pf p hpos h
    rcases h2 with h0 | ⟨hpf, h2, c0, rest, hp⟩
    · rw [h1, h0]; rfl
    · exfalso
      subst hpf
      simp only [wellFormedPath, Bool.and_eq_true, Bool.or_eq_true, beq_iff_eq] at hw
      rcases hw.2 with h0 | hrd
      · omega
      · unfold has_root_directory at hrd
        rw [find_last_of_eq_none_iff] at h
        cases hd : p.drop (rootNameEnd .windows p) with
        | nil => rw [hd] at hrd; simp at hrd
        | cons y t =>
          rw [hd] at hrd
          simp only at hrd
          exact h y (List.mem_of_mem_drop (by rw [hd]; exact List.mem_cons_self _ _))
            ((isSeparator_iff_mem _ _).mp hrd)

theorem GetDirectoryFromFilePath_append (p t : List Char)
    (ht : find_last_of t ['\\', '/'] = none) :
    GetDirectoryFromFilePath (GetDirectoryFromFilePath p ++ t) = GetDirectoryFromFilePath p := by
  unfold GetDirectoryFromFilePath
  cases h : find_last_of p ['\\', '/'] with
  | none =>
    simp only [List.nil_append]
    rw [ht]
  | some k =>
    obtain ⟨a, c, b, _, hlen, hc, _, htake, _⟩ := find_last_of_some_split p _ k h
    simp only [substr2, List.drop_zero]
    rw [htake, List.append_assoc, List.singleton_append, find_last_of_split a t _ c hc ht]
    simp only
    rw [List.take_append_eq_append_take]
    simp

theorem resolveNested_mono (fs : Files) (rec1 rec2 : List Char → Option (List (List Char)))
    (h : ∀ x v, rec1 x = some v → rec2 x = some v) :
    ∀ (copy acc r : List (List Char)), resolveNested fs rec1 copy acc = some r →
      resolveNested fs rec2 copy acc = some r := by
  intro copy
  induction copy with
  | nil => intro acc r hr; simpa [resolveNested] using hr
  | cons d rest ih =>
    intro acc r hr
    unfold resolveNested at hr ⊢
    split at hr
    · rename_i hm
      rw [if_pos hm]
      cases h1 : rec1 d with
      | none => simp [h1] at hr
      | some v =>
        rw [h1] at hr
        rw [h d v h1]
        exact ih _ _ hr
    · rename_i hm
      rw [if_neg hm]
      exact ih _ _ hr

theorem GetIncludedFiles_succ (fs : Files) :
    ∀ (n : Nat) (p : List Char) (r : List (List Char)),
      GetIncludedFiles n fs p = some r → GetIncludedFiles (n + 1) fs p = some r := by
  intro n
  induction n with
  | zero => intro p r h; simp [GetIncludedFiles] at h
  | succ n ih =>
    intro p r h
    unfold GetIncludedFiles at h ⊢
    simp only at h ⊢
    split at h
    · rename_i hm; rw [if_pos hm]; exact h
    · rename_i hm
      rw [if_neg hm]
      exact resolveNested_mono fs _ _ (fun x v hx => ih x v hx) _ _ _ h

theorem GetIncludedFiles_mono (fs : Files) (n m : Nat) (hnm : n ≤ m) (p : List Char)
    (r : List (List Char)) (h : GetIncludedFiles n fs p = some r) :
    GetIncludedFiles m fs p = some r := by
  induction hnm with
  | refl => exact h
  | step _ ih => exact GetIncludedFiles_succ fs _ p r ih

theorem returns_of_eq (fs : Files) (n : Nat) (p : List Char) (r : List (List Char))
    (h : GetIncludedFiles n fs p = some r) : Returns fs p r :=
  ⟨n, fun d hd => GetIncludedFiles_mono fs n d hd p r h⟩

theorem resolveNested_some (fs : Files) (recurse : List Char → Option (List (List Char))) :
    ∀ (copy acc r : List (List Char)), resolveNested fs recurse copy acc = some r →
      ∃ nested, List.Forall₂
          (fun d v => if (find (readFile fs d) directive_exp).isSome then recurse d = some v
                      else v = []) copy nested
        ∧ r = acc ++ nested.flatten := by
  intro copy
  induction copy with
  | nil =>
    intro acc r hr
    refine ⟨[], List.Forall₂.nil, ?_⟩
    simp [resolveNested] at hr
    simp [hr]
  | cons d rest ih =>
    intro acc r hr
    unfold resolveNested at hr
    split at hr
    · rename_i hm
      cases h1 : recurse d with
      | none => simp [h1] at hr
      | some v =>
        rw [h1] at hr
        obtain ⟨nested, hf, hr2⟩ := ih _ _ hr
        refine ⟨v :: nested, List.Forall₂.cons ?_ hf, ?_⟩
        · simp [hm, h1]
        · simp [hr2, List.append_assoc]
    · rename_i hm
      obtain ⟨nested, hf, hr2⟩ := ih _ _ hr
      refine ⟨[] :: nested, List.Forall₂.cons ?_ hf, ?_⟩
      · simp [hm]
      · simp [hr2]

theorem resolveNested_none (fs : Files) (recurse : List Char → Option (List (List Char))) :
    ∀ (copy acc : List (List Char)), resolveNested fs recurse copy acc = none →
      ∃ d ∈ copy, (find (readFile fs d) directive_exp).isSome = true ∧ recurse d = none := by
  intro copy
  induction copy with
  | nil => intro acc hr; simp [resolveNested] at hr
  | cons d rest ih =>
    intro acc hr
    unfold resolveNested at hr
    split at hr
    · rename_i hm
      cases h1 : recurse d with
      | none => exact ⟨d, List.mem_cons_self _ _, hm, h1⟩
      | some v =>
        rw [h1] at hr
        obtain ⟨x, hx, hxm, hxn⟩ := ih _ hr
        exact ⟨x, List.mem_cons_of_mem _ hx, hxm, hxn⟩
    · obtain ⟨x, hx, hxm, hxn⟩ := ih _ hr
      exact ⟨x, List.mem_cons_of_mem _ hx, hxm, hxn⟩

theorem GetIncludedFiles_none_chain (fs : Files) :
    ∀ (n : Nat) (p : List Char), GetIncludedFiles n fs p = none →
      ∃ l : List (List Char), l.length = n ∧ List.Chain (Recurses fs) p l := by
  intro n
  induction n with
  | zero => intro p _; exact ⟨[], rfl, List.Chain.nil⟩
  | succ n ih =>
    intro p h
    unfold GetIncludedFiles at h
    simp only at h
    split at h
    · simp at h
    · rename_i hm
      obtain ⟨d, hd, hdm, hdn⟩ := resolveNested_none fs _ _ _ h
      obtain ⟨l, hl, hc⟩ := ih d hdn
      refine ⟨d :: l, by simp [hl], List.Chain.cons ⟨?_, hdm⟩ hc⟩
      unfold Includes directIncludes
      rw [if_neg hm]
      exact hd

theorem chain_transGen {α : Type} (R : α → α → Prop) :
    ∀ (l : List α) (a b : α), List.Chain R a l → b ∈ l → Relation.TransGen R a b := by
  intro l
  induction l with
  | nil => intro a b _ hb; simp at hb
  | cons c t ih =>
    intro a b hc hb
    rw [List.chain_cons] at hc
    rcases List.mem_cons.mp hb with rfl | hb
    · exact Relation.TransGen.single hc.1
    · exact Relation.TransGen.head hc.1 (ih c b hc.2 hb)

theorem chain_cycle {α : Type} (R : α → α → Prop) :
    ∀ (l : List α) (a : α), List.Chain R a l → ¬ l.Nodup →
      ∃ x, Relation.TransGen R a x ∧ Relation.TransGen R x x := by
  intro l
  induction l with
  | nil => intro a _ hn; simp at hn
  | cons c t ih =>
    intro a hc hn
    rw [List.chain_cons] at hc
    rw [List.nodup_cons, not_and_or, not_not] at hn
    rcases hn with hmem | hn
    · exact ⟨c, Relation.TransGen.single hc.1, chain_transGen R t c c hc.2 hmem⟩
    · obtain ⟨x, hx1, hx2⟩ := ih c hc.2 hn
      exact ⟨x, Relation.TransGen.head hc.1 hx1, hx2⟩

theorem mem_keys_of_lookup (fs : Files) (d v : List Char) (h : fs.lookup d = some v) :
    d ∈ fs.map Prod.fst := by
  induction fs with
  | nil => simp [List.lookup] at h
  | cons e rest ih =>
    obtain ⟨k, c⟩ := e
    by_cases hk : d = k
    · simp [hk]
    · have hb : (d == k) = false := by simpa using hk
      simp only [List.lookup, hb] at h
      simp only [List.map_cons, List.mem_cons]
      exact Or.inr (ih h)

theorem find_nil_directive : find [] directive_exp = none := by decide

theorem mem_keys_of_marker (fs : Files) (d : List Char)
    (h : (find (readFile fs d) directive_exp).isSome = true) : d ∈ fs.map Prod.fst := by
  unfold readFile at h
  cases hl : fs.lookup d with
  | none =>
    rw [hl] at h
    simp [find_nil_directive] at h
  | some v => exact mem_keys_of_lookup fs d v hl

theorem recurses_includes (fs : Files) (a b : List Char)
    (h : Relation.TransGen (Recurses fs) a b) : Relation.TransGen (Includes fs) a b :=
  Relation.TransGen.mono (fun _ _ hr => hr.1) h

theorem chain_mem_rel {α : Type} (R : α → α → Prop) :
    ∀ (l : List α) (a x : α), List.Chain R a l → x ∈ l → ∃ y, R y x := by
  intro l
  induction l with
  | nil => intro a x _ hx; simp at hx
  | cons c t ih =>
    intro a x hc hx
    rw [List.chain_cons] at hc
    rcases List.mem_cons.mp hx with rfl | hx
    · exact ⟨a, hc.1⟩
    · exact ih c x hc.2 hx

theorem GetIncludedFiles_terminates (fs : Files) (p : List Char) (h : Acyclic fs p) :
    ∃ r, GetIncludedFiles (fs.length + 1) fs p = some r := by
  cases hr : GetIncludedFiles (fs.length + 1) fs p with
  | some r => exact ⟨r, rfl⟩
  | none =>
    exfalso
    obtain ⟨l, hl, hc⟩ := GetIncludedFiles_none_chain fs _ p hr
    have hsub : l ⊆ fs.map Prod.fst := by
      intro x hx
      obtain ⟨y, hy⟩ := chain_mem_rel (Recurses fs) l p x hc hx
      exact mem_keys_of_marker fs x hy.2
    have hnd : ¬ l.Nodup := by
      intro hnd
      have hle := (List.subperm_of_subset hnd hsub).length_le
      rw [hl, List.length_map] at hle
      omega
    obtain ⟨x, hx1, hx2⟩ := chain_cycle (Recurses fs) l p hc hnd
    exact h x (Relation.TransGen.to_reflTransGen (recurses_includes fs p x hx1))
      (recurses_includes fs x x hx2)

theorem GetIncludedFiles_no_marker (fs : Files) (p : List Char) (n : Nat)
    (h : (find (readFile fs p) directive_exp).isSome = false) :
    GetIncludedFiles (n + 1) fs p = some [] := by
  unfold GetIncludedFiles
  simp only
  rw [if_pos]
  cases hf : find (readFile fs p) directive_exp with
  | none => rfl
  | some v => rw [hf] at h; simp at h

theorem GetIncludedFiles_unfold (fs : Files) (p : List Char) (n : Nat)
    (r : List (List Char)) (h : GetIncludedFiles (n + 1) fs p = some r) :
    ∃ nested, List.Forall₂ (Returns fs) (directIncludes fs p) nested
      ∧ r = directIncludes fs p ++ nested.flatten := by
  unfold GetIncludedFiles at h
  simp only at h
  unfold directIncludes
  split at h
  · rename_i hm
    rw [if_pos hm]
    refine ⟨[], List.Forall₂.nil, ?_⟩
    simp at h
    simp [h]
  · rename_i hm
    rw [if_neg hm]
    obtain ⟨nested, hf, hr⟩ := resolveNested_some fs _ _ _ _ h
    refine ⟨nested, ?_, hr⟩
    refine List.Forall₂.imp ?_ hf
    intro d v hdv
    by_cases hd : (find (readFile fs d) directive_exp).isSome = true
    · rw [if_pos hd] at hdv
      exact returns_of_eq fs n d v hdv
    · rw [if_neg hd] at hdv
      subst hdv
      exact ⟨1, fun k hk => by
        obtain ⟨j, rfl⟩ : ∃ j, k = j + 1 := ⟨k - 1, by omega⟩
        exact GetIncludedFiles_no_marker fs d j (by simpa using hd)⟩

theorem acyclic_of_rank (fs : Files) (rank : List Char → Nat)
    (h : ∀ f d, Includes fs f d → rank d < rank f) (p : List Char) : Acyclic fs p := by
  intro x _ hx
  have : ∀ a b, Relation.TransGen (Includes fs) a b → rank b < rank a := by
    intro a b hab
    induction hab with
    | single hs => exact h _ _ hs
    | tail _ hs ih => exact lt_trans (h _ _ hs) ih
  exact lt_irrefl _ (this x x hx)

theorem directIncludes_nil_of_not_key (fs : Files) (f : List Char)
    (h : f ∉ fs.map Prod.fst) : directIncludes fs f = [] := by
  unfold directIncludes
  rw [if_pos]
  by_contra hc
  apply h
  apply mem_keys_of_marker
  cases hf : find (readFile fs f) directive_exp with
  | none => rw [hf] at hc; simp at hc
  | some v => rfl

theorem acyclic_of_rankDecreases (fs : Files) (rank : List Char → Nat)
    (h : rankDecreases fs rank = true) (p : List Char) : Acyclic fs p := by
  apply acyclic_of_rank fs rank
  intro f d hfd
  by_cases hk : f ∈ fs.map Prod.fst
  · obtain ⟨e, he, rfl⟩ := List.mem_map.mp hk
    unfold rankDecreases at h
    rw [List.all_eq_true] at h
    have := h e he
    rw [List.all_eq_true] at this
    simpa using this d hfd
  · unfold Includes at hfd
    rw [directIncludes_nil_of_not_key fs f hk] at hfd
    simp at hfd

theorem matchesFormat_eq_true_iff (x : List Char) (t : List (List Char)) :
    matchesFormat x t = true ↔ ∃ format ∈ t, x = format ∨ x = ConvertToUppercase format := by
  induction t with
  | nil => simp [matchesFormat]
  | cons f rest ih =>
    unfold matchesFormat
    by_cases h : (x == f || x == ConvertToUppercase f) = true
    · rw [if_pos h]
      simp only [Bool.or_eq_true, beq_iff_eq] at h
      simp [h]
    · rw [if_neg h, ih]
      simp only [Bool.or_eq_true, beq_iff_eq] at h
      simp [h]

theorem matchesFormat_eq_false_iff (x : List Char) (t : List (List Char)) :
    matchesFormat x t = false ↔
      ∀ format ∈ t, x ≠ format ∧ x ≠ ConvertToUppercase format := by
  rw [← Bool.not_eq_true, matchesFormat_eq_true_iff]
  simp only [not_exists, not_and, not_or]

theorem scanIncludes_eq (directory : List Char) (lines : List (List Char)) :
    scanIncludes directory lines
      = (lines.filter (fun l => (find l directive_exp).isSome)).map
          (fun l => directory ++ GetStringBetweenExpressions l directive_exp ['"']) := by
  induction lines with
  | nil => rfl
  | cons l rest ih =>
    unfold scanIncludes
    by_cases h : (find l directive_exp).isSome = true
    · rw [if_pos h, ih]
      simp only [List.filter_cons, h, if_true, List.map_cons]
    · rw [if_neg h, ih]
      simp [List.filter_cons, h]

theorem directIncludes_eq (fs : Files) (file_path : List Char) :
    directIncludes fs file_path
      = ((getlines (readFile fs file_path)).filter
            (fun l => (find l directive_exp).isSome)).map
          (fun l => GetDirectoryFromFilePath file_path
            ++ GetStringBetweenExpressions l directive_exp ['"']) := by
  unfold directIncludes
  split
  · rename_i h
    have hnone : ∀ l ∈ getlines (readFile fs file_path),
        (find l directive_exp).isSome = false := by
      intro l hl
      rw [Bool.eq_false_iff]
      intro hs
      have h1 := (find_isSome_iff_occurs _ _).mp hs
      have h2 := (find_isSome_iff_occurs _ _).mpr (h1.trans (getlines_within _ l hl))
      rw [Option.isNone_iff_eq_none] at h
      rw [h] at h2
      exact absurd h2 (by simp)
    rw [List.filter_eq_nil_iff.mpr (fun l hl => by simp [hnone l hl])]
    rfl
  · exact scanIncludes_eq _ _

/-- Under the path rules of `posix` a path with a `\` need not be a fixed point once
nativized: `std::filesystem` takes the `\` for a character of the file name, while
`GetDirectoryFromFilePath` cuts the directory at it. -/
theorem NativizeFilePath_posix_backslash :
    NativizeFilePath .posix sampleExtensions "a\\b.png".toList = "a\\a\\b.native_tex".toList
    ∧ NativizeFilePath .posix sampleExtensions "a\\a\\b.native_tex".toList
        = "a\\a\\a\\a\\b.native_tex".toList := by
  constructor <;> decide

theorem GetSupportedImageFilesFromPaths_eq (pf : Platform) (ext : NativeExtensions)
    (paths : List (List Char)) :
    GetSupportedImageFilesFromPaths pf ext paths
      = paths.filter (IsSupportedImageFile pf ext) := by
  induction paths with
  | nil => rfl
  | cons p rest ih =>
    unfold GetSupportedImageFilesFromPaths
    cases h : IsSupportedImageFile pf ext p <;> simp [List.filter_cons, h, ih]

theorem GetSupportedAudioFilesFromPaths_eq (pf : Platform) (paths : List (List Char)) :
    GetSupportedAudioFilesFromPaths pf paths = paths.filter (IsSupportedAudioFile pf) := by
  induction paths with
  | nil => rfl
  | cons p rest ih =>
    unfold GetSupportedAudioFilesFromPaths
    cases h : IsSupportedAudioFile pf p <;> simp [List.filter_cons, h, ih]

theorem GetSupportedScriptFilesFromPaths_eq (pf : Platform) (paths : List (List Char)) :
    GetSupportedScriptFilesFromPaths pf paths = paths.filter (IsEngineScriptFile pf) := by
  induction paths with
  | nil => rfl
  | cons p rest ih =>
    unfold GetSupportedScriptFilesFromPaths
    cases h : IsEngineScriptFile pf p <;> simp [List.filter_cons, h, ih]

theorem GetSupportedModelFilesFromPaths_eq (pf : Platform) (paths : List (List Char)) :
    GetSupportedModelFilesFromPaths pf paths = paths.filter (IsSupportedModelFile pf) := by
  induction paths with
  | nil => rfl
  | cons p rest ih =>
    unfold GetSupportedModelFilesFromPaths
    cases h : IsSupportedModelFile pf p <;> simp [List.filter_cons, h, ih]

theorem foldl_emplace_back {α : Type} (xs acc : List α) :
    xs.foldl (fun acc x => acc ++ [x]) acc = acc ++ xs := by
  induction xs generalizing acc with
  | nil => simp
  | cons x t ih => simp [ih]

theorem count_filter_ite (q : List Char → Bool) (l : List (List Char)) (p : List Char) :
    (l.filter q).count p = if q p then l.count p else 0 := by
  by_cases h : q p = true
  · rw [if_pos h]
    exact List.count_filter h
  · rw [if_neg h]
    apply List.count_eq_zero_of_not_mem
    intro hm
    exact h (List.mem_filter.mp hm).2

theorem supportedTables_exclusive :
    List.Pairwise (fun t1 t2 => exclusiveTables t1 t2 = true) supportedTables := by
  decide

theorem nativizeTables_exclusive :
    List.Pairwise (fun t1 t2 => exclusiveTables t1 t2 = true)
      [m_supportedAudioFormats, m_supportedImageFormats, m_supportedModelFormats,
        m_supportedFontFormats, m_supportedShaderFormats] := by
  decide

theorem exclusiveTables_spec (t1 t2 : List (List Char)) (h : exclusiveTables t1 t2 = true)
    (x : List Char) : ¬ (matchesFormat x t1 = true ∧ matchesFormat x t2 = true) := by
  rintro ⟨h1, h2⟩
  obtain ⟨e1, he1, hx1⟩ := (matchesFormat_eq_true_iff x t1).mp h1
  obtain ⟨e2, he2, hx2⟩ := (matchesFormat_eq_true_iff x t2).mp h2
  unfold exclusiveTables at h
  rw [List.all_eq_true] at h
  have h3 := h e1 he1
  rw [List.all_eq_true] at h3
  have h4 := h3 e2 he2
  simp only [Bool.and_eq_true, bne_iff_ne, ne_eq] at h4
  obtain ⟨⟨⟨a, b⟩, c⟩, d⟩ := h4
  rcases hx1 with hx1 | hx1 <;> rcases hx2 with hx2 | hx2
  · exact a (hx1.symm.trans hx2)
  · exact b (hx1.symm.trans hx2)
  · exact c (hx1.symm.trans hx2)
  · exact d (hx1.symm.trans hx2)

theorem exclusiveTables_disjoint (t1 t2 : List (List Char))
    (h : exclusiveTables t1 t2 = true) : List.Disjoint t1 t2 := by
  intro e h1 h2
  exact exclusiveTables_spec t1 t2 h e
    ⟨(matchesFormat_eq_true_iff e t1).mpr ⟨e, h1, Or.inl rfl⟩,
     (matchesFormat_eq_true_iff e t2).mpr ⟨e, h2, Or.inl rfl⟩⟩

theorem filter_length_le_one {α : Type} (P : α → Bool) (l : List α)
    (h : List.Pairwise (fun a b => ¬ (P a = true ∧ P b = true)) l) :
    (l.filter P).length ≤ 1 := by
  induction l with
  | nil => simp
  | cons a t ih =>
    rw [List.pairwise_cons] at h
    by_cases ha : P a = true
    · have : t.filter P = [] := by
        rw [List.filter_eq_nil_iff]
        intro b hb hPb
        exact h.1 b hb ⟨ha, hPb⟩
      simp [List.filter_cons, ha, this]
    · simp only [List.filter_cons, ha]
      exact ih h.2

/-- What the predicate of a category accepts: an extension matched by its table or
one accepted besides the table. -/
theorem supportedCategories_accept_iff (pf : Platform) (ext : NativeExtensions) :
    ∀ category ∈ supportedCategories pf ext, ∀ path,
      category.2.2 path = true ↔
        (matchesFormat (GetExtensionFromFilePath pf path) category.1 = true
          ∨ GetExtensionFromFilePath pf path ∈ category.2.1) := by
  intro category hc path
  simp only [supportedCategories, List.mem_cons, List.mem_singleton, List.not_mem_nil,
    or_false] at hc
  rcases hc with rfl | rfl | rfl | rfl | rfl | rfl
  · simp only [IsSupportedImageFile, List.mem_singleton]
    cases matchesFormat (GetExtensionFromFilePath pf path) m_supportedImageFormats <;> simp
  all_goals simp [IsSupportedAudioFile, IsSupportedModelFile, IsSupportedShaderFile,
    IsEngineScriptFile, IsSupportedFontFile]

theorem supportedCategories_also (pf : Platform) (ext : NativeExtensions) :
    ∀ category ∈ supportedCategories pf ext, ∀ x ∈ category.2.1,
      x = ext.EXTENSION_TEXTURE := by
  intro category hc x hx
  simp only [supportedCategories, List.mem_cons, List.mem_singleton, List.not_mem_nil,
    or_false] at hc
  rcases hc with rfl | rfl | rfl | rfl | rfl | rfl <;> simp at hx
  exact hx

theorem supportedCategories_table (pf : Platform) (ext : NativeExtensions) :
    ∀ category ∈ supportedCategories pf ext, category.1 ∈ supportedTables := by
  intro category hc
  simp only [supportedCategories, List.mem_cons, List.mem_singleton, List.not_mem_nil,
    or_false] at hc
  rcases hc with rfl | rfl | rfl | rfl | rfl | rfl <;> simp [supportedTables]

theorem mixed_case_unregistered :
    ∀ t ∈ supportedTables,
      matchesFormat ".Png".toList t = false ∧ matchesFormat [] t = false := by
  decide

theorem resolveNested_none_of_mem (fs : Files)
    (recurse : List Char → Option (List (List Char))) :
    ∀ (copy acc : List (List Char)),
      (∃ d ∈ copy, (find (readFile fs d) directive_exp).isSome = true ∧ recurse d = none) →
      resolveNested fs recurse copy acc = none := by
  intro copy
  induction copy with
  | nil => intro acc h; obtain ⟨d, hd, _⟩ := h; simp at hd
  | cons x rest ih =>
    intro acc h
    obtain ⟨d, hd, hm, hn⟩ := h
    unfold resolveNested
    by_cases hx : (find (readFile fs x) directive_exp).isSome = true
    · rw [if_pos hx]
      cases hr : recurse x with
      | none => rfl
      | some v =>
        simp only
        apply ih
        rcases List.mem_cons.mp hd with rfl | hd
        · rw [hn] at hr; exact absurd hr (by simp)
        · exact ⟨d, hd, hm, hn⟩
    · rw [if_neg hx]
      apply ih
      rcases List.mem_cons.mp hd with rfl | hd
      · exact absurd hm hx
      · exact ⟨d, hd, hm, hn⟩

theorem marker_of_includes (fs : Files) (f d : List Char) (h : Includes fs f d) :
    (find (readFile fs f) directive_exp).isSome = true := by
  unfold Includes directIncludes at h
  split at h
  · simp at h
  · rename_i hm
    cases hf : find (readFile fs f) directive_exp with
    | none => rw [hf] at hm; simp at hm
    | some v => rfl

theorem reachesCycle_step (fs : Files) (y : List Char) (h : ReachesCycle fs y) :
    ∃ z, Includes fs y z ∧ ReachesCycle fs z := by
  obtain ⟨x, hyx, hxx⟩ := h
  rcases Relation.ReflTransGen.cases_head hyx with rfl | ⟨c, hyc, hcx⟩
  · obtain ⟨b, hb, hbx⟩ := Relation.TransGen.head'_iff.mp hxx
    exact ⟨b, hb, y, hbx, hxx⟩
  · exact ⟨c, hyc, x, hcx, hxx⟩

theorem GetIncludedFiles_none_of_reachesCycle (fs : Files) :
    ∀ (depth : Nat) (y : List Char), ReachesCycle fs y →
      GetIncludedFiles depth fs y = none := by
  intro depth
  induction depth with
  | zero => intro y _; rfl
  | succ n ih =>
    intro y hy
    obtain ⟨z, hyz, hz⟩ := reachesCycle_step fs y hy
    obtain ⟨w, hzw, _⟩ := reachesCycle_step fs z hz
    have hmy := marker_of_includes fs y z hyz
    have hmz := marker_of_includes fs z w hzw
    unfold GetIncludedFiles
    simp only
    have hnn : ¬ (find (readFile fs y) directive_exp).isNone = true := by
      cases hf : find (readFile fs y) directive_exp with
      | none => rw [hf] at hmy; simp at hmy
      | some v => simp
    rw [if_neg hnn]
    apply resolveNested_none_of_mem
    refine ⟨z, ?_, hmz, ih z hz⟩
    unfold Includes directIncludes at hyz
    rw [if_neg hnn] at hyz
    exact hyz

theorem not_acyclic_iff (fs : Files) (p : List Char) : ¬ Acyclic fs p ↔ ReachesCycle fs p := by
  unfold Acyclic ReachesCycle
  push_neg
  rfl

theorem scanIncludes_starts (directory : List Char) (lines : List (List Char)) :
    ∀ x ∈ scanIncludes directory lines, directory <+: x := by
  induction lines with
  | nil => intro x hx; simp [scanIncludes] at hx
  | cons l rest ih =>
    intro x hx
    unfold scanIncludes at hx
    split at hx
    · rcases List.mem_cons.mp hx with rfl | hx
      · exact List.prefix_append _ _
      · exact ih x hx
    · exact ih x hx

theorem directory_of_append_some (d t : List Char) (j : Nat)
    (ht : find_last_of t ['\\', '/'] = some j) :
    d <+: GetDirectoryFromFilePath (d ++ t) := by
  unfold GetDirectoryFromFilePath
  rw [find_last_of_append_some d t _ j ht]
  simp only [substr2, List.drop_zero]
  rw [List.take_append_eq_append_take, List.take_of_length_le (by omega)]
  exact List.prefix_append _ _

/-- The directory of a path that starts with the directory of `p` starts with the
directory of `p`. -/
theorem directory_starts_directory (p t : List Char) :
    GetDirectoryFromFilePath p
      <+: GetDirectoryFromFilePath (GetDirectoryFromFilePath p ++ t) := by
  cases ht : find_last_of t ['\\', '/'] with
  | none => rw [GetDirectoryFromFilePath_append p t ht]
  | some j => exact directory_of_append_some _ t j ht

theorem GetIncludedFiles_starts (fs : Files) :
    ∀ (depth : Nat) (p : List Char) (r : List (List Char)),
      GetIncludedFiles depth fs p = some r →
      ∀ x ∈ r, GetDirectoryFromFilePath p <+: x := by
  intro depth
  induction depth with
  | zero => intro p r h; simp [GetIncludedFiles] at h
  | succ n ih =>
    intro p r h x hx
    unfold GetIncludedFiles at h
    simp only at h
    split at h
    · simp only [Option.some.injEq] at h
      rw [← h] at hx
      simp at hx
    · obtain ⟨nested, hf, hr⟩ := resolveNested_some fs _ _ _ _ h
      rw [hr] at hx
      rcases List.mem_append.mp hx with hx | hx
      · exact scanIncludes_starts _ _ x hx
      · rw [List.mem_flatten] at hx
        obtain ⟨v, hv, hxv⟩ := hx
        have key : ∀ (ds : List (List Char)) (vs : List (List (List Char))),
            (∀ d ∈ ds, GetDirectoryFromFilePath p <+: d) →
            List.Forall₂
              (fun d v => if (find (readFile fs d) directive_exp).isSome = true
                then GetIncludedFiles n fs d = some v else v = []) ds vs →
            v ∈ vs → GetDirectoryFromFilePath p <+: x := by
          intro ds vs hds hfor
          induction hfor with
          | nil => intro hm; simp at hm
          | @cons d v0 ds0 vs0 hhead _ ihf =>
            intro hm
            rcases List.mem_cons.mp hm with rfl | hm
            · split at hhead
              · have h1 := ih d v hhead x hxv
                obtain ⟨t, hd⟩ := hds d (List.mem_cons_self _ _)
                have h2 := directory_starts_directory p t
                rw [hd] at h2
                exact h2.trans h1
              · rw [hhead] at hxv; simp at hxv
            · exact ihf (fun d hd => hds d (List.mem_cons_of_mem _ hd)) hm
        exact key _ _ (scanIncludes_starts _ _) hf hv

/-! ## The statements -/

/-- C1: the direct includes `D` of `file_path` are, in line order, the directory of
`file_path` followed by the extracted name of each line that holds the marker. When
the include graph that can be reached from `file_path` has no cycle,
`GetIncludedFiles(file_path)` returns `D` followed by the results of
`GetIncludedFiles(d)` for each `d` of `D`, in that order. For `a.txt` including `b.txt`
and `c.txt`, with `b.txt` including `d.txt`, the result is `[b.txt, c.txt, d.txt]`. -/
theorem GetIncludedFiles_direct_then_nested :
    (∀ (fs : Files) (file_path : List Char),
      directIncludes fs file_path
        = ((getlines (readFile fs file_path)).filter
              (fun l => (find l directive_exp).isSome)).map
            (fun l => GetDirectoryFromFilePath file_path
              ++ GetStringBetweenExpressions l directive_exp ['"']))
    ∧ (∀ (fs : Files) (file_path : List Char), Acyclic fs file_path →
      ∃ result nested,
        Returns fs file_path result
        ∧ List.Forall₂ (Returns fs) (directIncludes fs file_path) nested
        ∧ result = directIncludes fs file_path ++ nested.flatten)
    ∧ Returns exampleFiles "a.txt".toList
        ["b.txt".toList, "c.txt".toList, "d.txt".toList] := by
  refine ⟨directIncludes_eq, ?_, ?_⟩
  · intro fs p h
    obtain ⟨r, hr⟩ := GetIncludedFiles_terminates fs p h
    obtain ⟨nested, hn, he⟩ := GetIncludedFiles_unfold fs p _ r hr
    exact ⟨r, nested, returns_of_eq fs _ p r hr, hn, he⟩
  · exact returns_of_eq exampleFiles 3 _ _ (by decide)

/-- The statement of C1 at the files of the example, whose include graph has no cycle. -/
theorem GetIncludedFiles_direct_then_nested_witness :
    Acyclic exampleFiles "a.txt".toList ∧
    ∃ result nested,
        Returns exampleFiles "a.txt".toList result
        ∧ List.Forall₂ (Returns exampleFiles) (directIncludes exampleFiles "a.txt".toList) nested
        ∧ result = directIncludes exampleFiles "a.txt".toList ++ nested.flatten :=
  ⟨acyclic_of_rankDecreases exampleFiles exampleRank (by decide) _,
   GetIncludedFiles_direct_then_nested.2.1 exampleFiles "a.txt".toList
     (acyclic_of_rankDecreases exampleFiles exampleRank (by decide) _)⟩

/-- C2: evaluation of `GetRelativePath` at the input of the claim. With the working
directory `/a/b/c` and the path `/a/b/d/file.txt` the code returns `d/file.txt`, not
`../d/file.txt`: the iterator over the base is advanced once before the first `..` is
emitted, so the component of the base at the point of divergence yields no `..`.
The same holds with a drive in front of both paths on `windows`. -/
theorem GetRelativePath_skips_divergent_component :
    GetRelativePath .posix "/a/b/c".toList "/a/b/d/file.txt".toList = "d/file.txt".toList
    ∧ GetRelativePath .windows "C:/a/b/c".toList "C:/a/b/d/file.txt".toList
        = "d/file.txt".toList := by
  constructor <;> decide

/-- C3: `NativizeFilePath` agrees with the first-match rule of the specification over the
order audio, image, model, font, shader; `sound.wav` becomes `sound` followed by
`EXTENSION_AUDIO`, and `readme` is returned unchanged (the engine texture extension
being a non-empty text). -/
theorem NativizeFilePath_first_match (pf : Platform) (ext : NativeExtensions) :
    (∀ path, NativizeFilePath pf ext path = nativizeSpec pf ext path)
    ∧ NativizeFilePath pf ext "sound.wav".toList = "sound".toList ++ ext.EXTENSION_AUDIO
    ∧ (ext.EXTENSION_TEXTURE ≠ [] →
        NativizeFilePath pf ext "readme".toList = "readme".toList) := by
  refine ⟨?_, ?_, ?_⟩
  · intro path
    unfold NativizeFilePath nativizeSpec nativizeCategories
    simp only [List.find?]
    cases IsSupportedAudioFile pf path <;> cases IsSupportedImageFile pf ext path <;>
      cases IsSupportedModelFile pf path <;> cases IsSupportedFontFile pf path <;>
      cases IsSupportedShaderFile pf path <;> simp
  · cases pf <;> rfl
  · intro h
    have himg : IsSupportedImageFile pf ext "readme".toList = false := by
      have he : GetExtensionFromFilePath pf "readme".toList = [] := by cases pf <;> rfl
      unfold IsSupportedImageFile
      rw [he]
      have : matchesFormat [] m_supportedImageFormats = false := by decide
      rw [this]
      have h2 : ([] == ext.EXTENSION_TEXTURE) = false := by
        cases hx : ext.EXTENSION_TEXTURE with
        | nil => exact absurd hx h
        | cons a b => rfl
      simp [h2]
    unfold NativizeFilePath
    have h1 : IsSupportedAudioFile pf "readme".toList = false := by cases pf <;> rfl
    have h3 : IsSupportedModelFile pf "readme".toList = false := by cases pf <;> rfl
    have h4 : IsSupportedFontFile pf "readme".toList = false := by cases pf <;> rfl
    have h5 : IsSupportedShaderFile pf "readme".toList = false := by cases pf <;> rfl
    rw [h1, himg, h3, h4, h5]
    simp

/-- The last part of C3 at the sample extensions. -/
theorem NativizeFilePath_first_match_witness :
    sampleExtensions.EXTENSION_TEXTURE ≠ [] ∧
    NativizeFilePath .windows sampleExtensions "readme".toList = "readme".toList :=
  ⟨by decide, (NativizeFilePath_first_match .windows sampleExtensions).2.2 (by decide)⟩

/-- C6: for a well-formed path with a file name and an extension, directory, file
name without extension and extension concatenate to the path, and so do
`GetFilePathWithoutExtension` and the extension. -/
theorem path_reconstructs (pf : Platform) (p : List Char)
    (hw : wellFormedPath pf p = true)
    (hf : GetFileNameFromFilePath pf p ≠ [])
    (he : GetExtensionFromFilePath pf p ≠ []) :
    GetDirectoryFromFilePath p ++ GetFileNameNoExtensionFromFilePath pf p
        ++ GetExtensionFromFilePath pf p = p
    ∧ GetFilePathWithoutExtension pf p ++ GetExtensionFromFilePath pf p = p := by
  have key : GetDirectoryFromFilePath p ++ GetFileNameNoExtensionFromFilePath pf p
        ++ GetExtensionFromFilePath pf p = p := by
    rw [GetFileNameFromFilePath_eq] at hf
    rw [GetExtensionFromFilePath_eq] at he ⊢
    obtain ⟨i, hi, hext⟩ := extension_ne_nil pf p he
    have hstrip : stripStream pf (filename pf p) = filename pf p := by
      cases pf with
      | posix => rfl
      | windows =>
        apply stripStream_of_no_colon
        simp only [wellFormedPath, Bool.and_eq_true] at hw
        simpa using hw.1
    rw [hstrip] at hi hext
    unfold GetFileNameNoExtensionFromFilePath
    simp only
    rw [GetFileNameFromFilePath_eq, hi, hext]
    simp only [substr2, List.drop_zero]
    rw [List.append_assoc, List.take_append_drop]
    exact directory_append_filename pf p hw hf
  exact ⟨key, key⟩

/-- The statement of C6 at `C:\Assets/img.v2.png`. -/
theorem path_reconstructs_witness :
    wellFormedPath .windows "C:\\Assets/img.v2.png".toList = true
    ∧ GetFileNameFromFilePath .windows "C:\\Assets/img.v2.png".toList ≠ []
    ∧ GetExtensionFromFilePath .windows "C:\\Assets/img.v2.png".toList ≠ []
    ∧ GetDirectoryFromFilePath "C:\\Assets/img.v2.png".toList
        ++ GetFileNameNoExtensionFromFilePath .windows "C:\\Assets/img.v2.png".toList
        ++ GetExtensionFromFilePath .windows "C:\\Assets/img.v2.png".toList
        = "C:\\Assets/img.v2.png".toList :=
  ⟨by decide, by decide, by decide,
   (path_reconstructs .windows "C:\\Assets/img.v2.png".toList (by decide) (by decide)
     (by decide)).1⟩

/-- C7: `GetFilesInDirectory` returns the paths of the entries that are regular files and
whose path could be read, in iteration order; an entry whose path cannot be read is
skipped and the scan goes on. With one unreadable entry and two readable files, at any
position, the result is the two readable files. -/
theorem GetFilesInDirectory_skips_unreadable :
    (∀ (ls : List Char → List DirectoryEntry) (path : List Char),
      GetFilesInDirectory ls path
        = (ls path).filterMap
            (fun it => if it.status = FileType.regular then it.path else none))
    ∧ (∀ (path a b : List Char),
        GetFilesInDirectory
            (fun _ => [⟨FileType.regular, some a⟩, ⟨FileType.regular, none⟩,
                       ⟨FileType.regular, some b⟩]) path = [a, b]
        ∧ GetFilesInDirectory
            (fun _ => [⟨FileType.regular, none⟩, ⟨FileType.regular, some a⟩,
                       ⟨FileType.regular, some b⟩]) path = [a, b]
        ∧ GetFilesInDirectory
            (fun _ => [⟨FileType.regular, some a⟩, ⟨FileType.regular, some b⟩,
                       ⟨FileType.regular, none⟩]) path = [a, b]) := by
  constructor
  · intro ls path
    unfold GetFilesInDirectory
    induction ls path with
    | nil => rfl
    | cons it rest ih =>
      unfold filesLoop
      by_cases hs : it.status = FileType.regular
      · cases hp : it.path with
        | none => simp [hs, hp, ih]
        | some v => simp [hs, hp, ih]
      · simp [hs, ih]
  · intro path a b
    simp [GetFilesInDirectory, filesLoop]

/-- C8: evaluation of the two listings at an entry whose native path holds a `\`.
`GetFilesInDirectory` returns the path as it is, with the `\`, whereas
`GetDirectoriesInDirectory` replaces each `\` by `/`, so that none of its results
holds a `\`. -/
theorem GetFilesInDirectory_keeps_backslash :
    GetFilesInDirectory (fun _ => [⟨FileType.regular, some "Assets\\a.png".toList⟩])
        "Assets".toList = ["Assets\\a.png".toList]
    ∧ '\\' ∈ "Assets\\a.png".toList
    ∧ GetDirectoriesInDirectory (fun _ => [⟨FileType.directory, some "Assets\\sub".toList⟩])
        "Assets".toList = ["Assets/sub".toList]
    ∧ (∀ (ls : List Char → List DirectoryEntry) (path : List Char),
        ∀ p ∈ GetDirectoriesInDirectory ls path, '\\' ∉ p) := by
  refine ⟨by decide, by decide, by decide, ?_⟩
  intro ls path
  unfold GetDirectoriesInDirectory
  induction ls path with
  | nil => intro p hp; simp [directoriesLoop] at hp
  | cons it rest ih =>
    intro p hp
    unfold directoriesLoop at hp
    split at hp
    · exact ih p hp
    · simp only at hp
      split at hp
      · rcases List.mem_cons.mp hp with rfl | hp
        · intro hmem
          obtain ⟨c, _, hc⟩ := List.mem_map.mp hmem
          by_cases hb : c = '\\'
          · simp [hb] at hc
          · simp [hb] at hc
        · exact ih p hp
      · exact ih p hp

/-- C9: evaluation at the line of the claim. For `#include "a.h" // "x"` the capture
`(.*)` of the regular expression is greedy and runs up to the last `"` of the line:
the dependency is the directory followed by `a.h" // "x`, not by `a.h`. -/
theorem GetIncludedFiles_takes_last_quote :
    GetStringBetweenExpressions "#include \"a.h\" // \"x\"".toList directive_exp ['"']
      = "a.h\" // \"x".toList
    ∧ scanIncludes "dir/".toList ["#include \"a.h\" // \"x\"".toList]
      = ["dir/a.h\" // \"x".toList]
    ∧ GetIncludedFiles 1 [("dir/m.hlsl".toList, "#include \"a.h\" // \"x\"\n".toList)]
        "dir/m.hlsl".toList = some ["dir/a.h\" // \"x".toList] := by
  refine ⟨by decide, by decide, by decide⟩

/-- C10: when `file_path` cannot be read, or its text holds no occurrence of the marker,
`GetIncludedFiles(file_path)` returns the empty list, at once (no nested call). -/
theorem GetIncludedFiles_empty_without_marker (fs : Files) (file_path : List Char)
    (h : fs.lookup file_path = none ∨ find (readFile fs file_path) directive_exp = none) :
    (∀ depth, GetIncludedFiles (depth + 1) fs file_path = some [])
    ∧ Returns fs file_path [] := by
  have hm : find (readFile fs file_path) directive_exp = none := by
    rcases h with h | h
    · unfold readFile
      rw [h]
      exact find_nil_directive
    · exact h
  have hall : ∀ depth, GetIncludedFiles (depth + 1) fs file_path = some [] := by
    intro depth
    unfold GetIncludedFiles
    simp only
    rw [hm]
    rfl
  refine ⟨hall, 1, fun d hd => ?_⟩
  obtain ⟨j, rfl⟩ : ∃ j, d = j + 1 := ⟨d - 1, by omega⟩
  exact hall j

/-- The statement of C10 at a missing file and at a file without the marker. -/
theorem GetIncludedFiles_empty_without_marker_witness :
    (exampleFiles.lookup "missing.txt".toList = none
      ∨ find (readFile exampleFiles "missing.txt".toList) directive_exp = none)
    ∧ (exampleFiles.lookup "c.txt".toList = none
      ∨ find (readFile exampleFiles "c.txt".toList) directive_exp = none)
    ∧ GetIncludedFiles 1 exampleFiles "missing.txt".toList = some []
    ∧ GetIncludedFiles 1 exampleFiles "c.txt".toList = some [] :=
  ⟨Or.inl (by decide), Or.inr (by decide),
   (GetIncludedFiles_empty_without_marker exampleFiles "missing.txt".toList
      (Or.inl (by decide))).1 0,
   (GetIncludedFiles_empty_without_marker exampleFiles "c.txt".toList
      (Or.inr (by decide))).1 0⟩

/-- C11: evaluation of the tables of `Initialize`. The image table lists `.raw` twice,
at the positions 6 and 23, so it is not free of duplicates; the audio, model, shader,
script and font tables are. -/
theorem image_table_lists_raw_twice :
    ¬ m_supportedImageFormats.Nodup
    ∧ m_supportedImageFormats.count ".raw".toList = 2
    ∧ m_supportedImageFormats.get? 6 = some ".raw".toList
    ∧ m_supportedImageFormats.get? 23 = some ".raw".toList
    ∧ m_supportedAudioFormats.Nodup ∧ m_supportedModelFormats.Nodup
    ∧ m_supportedShaderFormats.Nodup ∧ m_supportedScriptFormats.Nodup
    ∧ m_supportedFontFormats.Nodup := by
  refine ⟨by decide, by decide, by decide, by decide, by decide, by decide, by decide,
    by decide, by decide⟩

/-- C12: `GetSupportedFilesInDirectory(path)` is the images of the listing of `path`,
then its scripts, then its models, each group in listing order. -/
theorem GetSupportedFilesInDirectory_images_scripts_models (pf : Platform)
    (ext : NativeExtensions) (ls : List Char → List DirectoryEntry) (path : List Char) :
    GetSupportedFilesInDirectory pf ext ls path
      = (GetFilesInDirectory ls path).filter (IsSupportedImageFile pf ext)
        ++ (GetFilesInDirectory ls path).filter (IsEngineScriptFile pf)
        ++ (GetFilesInDirectory ls path).filter (IsSupportedModelFile pf) := by
  unfold GetSupportedFilesInDirectory
  simp only [foldl_emplace_back, List.nil_append, GetSupportedImageFilesFromPaths_eq,
    GetSupportedScriptFilesFromPaths_eq, GetSupportedModelFilesFromPaths_eq]

/-- C13: each filtering helper returns the elements of its input that satisfy the
predicate of its category: a sublist of the input, in input order, in which an
accepted path occurs as often as in the input. -/
theorem filtering_helpers_filter (pf : Platform) (ext : NativeExtensions)
    (paths : List (List Char)) :
    (GetSupportedImageFilesFromPaths pf ext paths
        = paths.filter (IsSupportedImageFile pf ext)
      ∧ GetSupportedAudioFilesFromPaths pf paths = paths.filter (IsSupportedAudioFile pf)
      ∧ GetSupportedScriptFilesFromPaths pf paths = paths.filter (IsEngineScriptFile pf)
      ∧ GetSupportedModelFilesFromPaths pf paths = paths.filter (IsSupportedModelFile pf))
    ∧ (List.Sublist (GetSupportedImageFilesFromPaths pf ext paths) paths
      ∧ List.Sublist (GetSupportedAudioFilesFromPaths pf paths) paths
      ∧ List.Sublist (GetSupportedScriptFilesFromPaths pf paths) paths
      ∧ List.Sublist (GetSupportedModelFilesFromPaths pf paths) paths)
    ∧ (∀ p, ((GetSupportedImageFilesFromPaths pf ext paths).count p
          = if IsSupportedImageFile pf ext p then paths.count p else 0)
        ∧ ((GetSupportedAudioFilesFromPaths pf paths).count p
          = if IsSupportedAudioFile pf p then paths.count p else 0)
        ∧ ((GetSupportedScriptFilesFromPaths pf paths).count p
          = if IsEngineScriptFile pf p then paths.count p else 0)
        ∧ ((GetSupportedModelFilesFromPaths pf paths).count p
          = if IsSupportedModelFile pf p then paths.count p else 0)) := by
  rw [GetSupportedImageFilesFromPaths_eq, GetSupportedAudioFilesFromPaths_eq,
    GetSupportedScriptFilesFromPaths_eq, GetSupportedModelFilesFromPaths_eq]
  refine ⟨⟨rfl, rfl, rfl, rfl⟩,
    ⟨List.filter_sublist _, List.filter_sublist _, List.filter_sublist _,
      List.filter_sublist _⟩, fun p => ⟨?_, ?_, ?_, ?_⟩⟩ <;>
  exact count_filter_ite _ _ _

/-- C14: each of the eight predicates of the native categories is true exactly when the
extension of the path equals the native extension of the category; a path whose
extension is the upper-case form of the native extension, that form being another
text, is rejected. -/
theorem engine_predicates_exact (pf : Platform) (ext : NativeExtensions) :
    (∀ category ∈ engineCategories pf ext, ∀ path,
        category.1 path = true ↔ GetExtensionFromFilePath pf path = category.2)
    ∧ (∀ category ∈ engineCategories pf ext, ∀ path,
        ConvertToUppercase category.2 ≠ category.2 →
        GetExtensionFromFilePath pf path = ConvertToUppercase category.2 →
        category.1 path = false) := by
  have key : ∀ category ∈ engineCategories pf ext, ∀ path,
      category.1 path = true ↔ GetExtensionFromFilePath pf path = category.2 := by
    intro category hc path
    simp only [engineCategories, List.mem_cons, List.mem_singleton, List.not_mem_nil,
      or_false] at hc
    rcases hc with rfl | rfl | rfl | rfl | rfl | rfl | rfl | rfl <;>
      simp [IsEnginePrefabFile, IsEngineModelFile, IsEngineMaterialFile, IsEngineMeshFile,
        IsEngineSceneFile, IsEngineTextureFile, IsEngineAudioFile, IsEngineShaderFile]
  refine ⟨key, ?_⟩
  intro category hc path hne hx
  rw [← Bool.not_eq_true, key category hc path, hx]
  exact hne

/-- The statement of C14 at the scene category and `maps\level.NATIVE_WORLD`. -/
theorem engine_predicates_exact_witness :
    ConvertToUppercase sampleExtensions.EXTENSION_WORLD ≠ sampleExtensions.EXTENSION_WORLD
    ∧ GetExtensionFromFilePath .windows "maps\\level.NATIVE_WORLD".toList
        = ConvertToUppercase sampleExtensions.EXTENSION_WORLD
    ∧ IsEngineSceneFile .windows sampleExtensions "maps\\level.NATIVE_WORLD".toList = false
    ∧ IsEngineSceneFile .windows sampleExtensions "maps\\level.native_world".toList = true :=
  ⟨by decide, by decide,
   (engine_predicates_exact .windows sampleExtensions).2
     (IsEngineSceneFile .windows sampleExtensions, sampleExtensions.EXTENSION_WORLD)
     (by simp [engineCategories]) "maps\\level.NATIVE_WORLD".toList (by decide) (by decide),
   by decide⟩

/-- C15, counterexample: `IsEngineFile` accepts the script `player.as`, which none of the
eight predicates of the native categories accepts. -/
theorem IsEngineFile_accepts_script :
    IsEngineFile .windows sampleExtensions "scripts\\player.as".toList = true
    ∧ IsEngineFile .posix sampleExtensions "scripts/player.as".toList = true
    ∧ (∀ category ∈ engineCategories .windows sampleExtensions,
        category.1 "scripts\\player.as".toList = false)
    ∧ (∀ category ∈ engineCategories .posix sampleExtensions,
        category.1 "scripts/player.as".toList = false) := by
  refine ⟨by decide, by decide, ?_, ?_⟩ <;>
  · intro category hc
    simp only [engineCategories, List.mem_cons, List.mem_singleton, List.not_mem_nil,
      or_false] at hc
    rcases hc with rfl | rfl | rfl | rfl | rfl | rfl | rfl | rfl <;> decide

/-- C15, amended: `IsEngineFile(path)` is true exactly when `IsEngineScriptFile(path)` is
or one of the eight predicates of the native categories is: the extension is a
registered script extension, or its upper-case form, or one of the native extensions. -/
theorem IsEngineFile_iff (pf : Platform) (ext : NativeExtensions) (path : List Char) :
    (IsEngineFile pf ext path = true ↔
      (IsEngineScriptFile pf path = true
        ∨ ∃ category ∈ engineCategories pf ext, category.1 path = true))
    ∧ (IsEngineFile pf ext path = true ↔
      (matchesFormat (GetExtensionFromFilePath pf path) m_supportedScriptFormats = true
        ∨ GetExtensionFromFilePath pf path ∈ (engineCategories pf ext).map Prod.snd)) := by
  constructor
  · simp only [IsEngineFile, engineCategories, Bool.or_eq_true, List.mem_cons,
      List.mem_singleton, List.not_mem_nil, or_false, exists_eq_or_imp, exists_eq_left]
    tauto
  · simp only [IsEngineFile, engineCategories, Bool.or_eq_true, List.map_cons, List.map_nil,
      List.mem_cons, List.mem_singleton, List.not_mem_nil, or_false, IsEngineScriptFile,
      IsEnginePrefabFile, IsEngineModelFile, IsEngineMaterialFile, IsEngineMeshFile,
      IsEngineSceneFile, IsEngineTextureFile, IsEngineAudioFile, IsEngineShaderFile,
      beq_iff_eq]
    tauto

/-- C16, counterexample: `IsSupportedImageFile` accepts a path with the engine texture
extension `.native_tex`, which is no entry of the image table and no upper-case form
of one. -/
theorem IsSupportedImageFile_accepts_engine_texture :
    GetExtensionFromFilePath .windows "tex\\sky.native_tex".toList = ".native_tex".toList
    ∧ (∀ format ∈ m_supportedImageFormats,
        ".native_tex".toList ≠ format ∧ ".native_tex".toList ≠ ConvertToUppercase format)
    ∧ IsSupportedImageFile .windows sampleExtensions "tex\\sky.native_tex".toList = true
    ∧ IsSupportedImageFile .posix sampleExtensions "tex/sky.native_tex".toList = true := by
  refine ⟨by decide, by decide, by decide, by decide⟩

/-- C16, amended: the predicate of a category rejects every path whose extension is no
entry of its table, no upper-case form of one and, for the image category, not
`EXTENSION_TEXTURE`. The mixed-case `.Png` and the empty extension are rejected by
every category, `EXTENSION_TEXTURE` being another text. -/
theorem supported_predicates_reject_unregistered (pf : Platform) (ext : NativeExtensions)
    (path : List Char) :
    (∀ category ∈ supportedCategories pf ext,
        (∀ format ∈ category.1,
          GetExtensionFromFilePath pf path ≠ format
            ∧ GetExtensionFromFilePath pf path ≠ ConvertToUppercase format) →
        GetExtensionFromFilePath pf path ∉ category.2.1 →
        category.2.2 path = false)
    ∧ (GetExtensionFromFilePath pf path = ".Png".toList →
        ext.EXTENSION_TEXTURE ≠ ".Png".toList →
        ∀ category ∈ supportedCategories pf ext, category.2.2 path = false)
    ∧ (GetExtensionFromFilePath pf path = [] → ext.EXTENSION_TEXTURE ≠ [] →
        ∀ category ∈ supportedCategories pf ext, category.2.2 path = false) := by
  have reject : ∀ category ∈ supportedCategories pf ext,
      matchesFormat (GetExtensionFromFilePath pf path) category.1 = false →
      GetExtensionFromFilePath pf path ∉ category.2.1 →
      category.2.2 path = false := by
    intro category hc hm ht
    rw [← Bool.not_eq_true, supportedCategories_accept_iff pf ext category hc path, hm]
    rintro (h | h)
    · exact absurd h (by simp)
    · exact ht h
  have texture : ∀ category ∈ supportedCategories pf ext,
      GetExtensionFromFilePath pf path ≠ ext.EXTENSION_TEXTURE →
      GetExtensionFromFilePath pf path ∉ category.2.1 :=
    fun category hc ht h => ht (supportedCategories_also pf ext category hc _ h)
  refine ⟨?_, ?_, ?_⟩
  · intro category hc hu ht
    exact reject category hc ((matchesFormat_eq_false_iff _ _).mpr hu) ht
  · intro hx ht category hc
    refine reject category hc ?_
      (texture category hc (by rw [hx]; exact fun h => ht h.symm))
    rw [hx]
    exact (mixed_case_unregistered _ (supportedCategories_table pf ext category hc)).1
  · intro hx ht category hc
    refine reject category hc ?_
      (texture category hc (by rw [hx]; exact fun h => ht h.symm))
    rw [hx]
    exact (mixed_case_unregistered _ (supportedCategories_table pf ext category hc)).2

/-- The statement of C16 as amended at `icons\app.Png`, `docs\readme` and
`tex\sky.native_tex`. -/
theorem supported_predicates_reject_unregistered_witness :
    GetExtensionFromFilePath .windows "icons\\app.Png".toList = ".Png".toList
    ∧ sampleExtensions.EXTENSION_TEXTURE ≠ ".Png".toList
    ∧ IsSupportedImageFile .windows sampleExtensions "icons\\app.Png".toList = false
    ∧ GetExtensionFromFilePath .windows "docs\\readme".toList = []
    ∧ sampleExtensions.EXTENSION_TEXTURE ≠ []
    ∧ IsSupportedImageFile .windows sampleExtensions "docs\\readme".toList = false
    ∧ (∀ format ∈ m_supportedAudioFormats,
        GetExtensionFromFilePath .windows "tex\\sky.native_tex".toList ≠ format
          ∧ GetExtensionFromFilePath .windows "tex\\sky.native_tex".toList
              ≠ ConvertToUppercase format)
    ∧ GetExtensionFromFilePath .windows "tex\\sky.native_tex".toList ∉ ([] : List (List Char))
    ∧ IsSupportedAudioFile .windows "tex\\sky.native_tex".toList = false :=
  ⟨by decide, by decide,
   (supported_predicates_reject_unregistered .windows sampleExtensions
      "icons\\app.Png".toList).2.1 (by decide) (by decide)
      (m_supportedImageFormats, [sampleExtensions.EXTENSION_TEXTURE],
        IsSupportedImageFile .windows sampleExtensions) (by simp [supportedCategories]),
   by decide, by decide,
   (supported_predicates_reject_unregistered .windows sampleExtensions
      "docs\\readme".toList).2.2 (by decide) (by decide)
      (m_supportedImageFormats, [sampleExtensions.EXTENSION_TEXTURE],
        IsSupportedImageFile .windows sampleExtensions) (by simp [supportedCategories]),
   by decide, by simp,
   (supported_predicates_reject_unregistered .windows sampleExtensions
      "tex\\sky.native_tex".toList).1
      (m_supportedAudioFormats, [], IsSupportedAudioFile .windows)
      (by simp [supportedCategories]) (by decide) (by simp)⟩

/-- C17: the six tables of `Initialize` are pairwise disjoint, no extension is matched
(as it is or in upper case) by two of them, and so at most one table matches the
extension of a path, among the six and among the five that `NativizeFilePath` tests. -/
theorem supported_tables_category_exclusive :
    List.Pairwise List.Disjoint supportedTables
    ∧ List.Pairwise
        (fun t1 t2 => ∀ x, ¬ (matchesFormat x t1 = true ∧ matchesFormat x t2 = true))
        supportedTables
    ∧ (∀ x, (supportedTables.filter (matchesFormat x)).length ≤ 1)
    ∧ (∀ x, ([m_supportedAudioFormats, m_supportedImageFormats, m_supportedModelFormats,
          m_supportedFontFormats, m_supportedShaderFormats].filter
            (matchesFormat x)).length ≤ 1) := by
  have h2 : List.Pairwise
      (fun t1 t2 => ∀ x, ¬ (matchesFormat x t1 = true ∧ matchesFormat x t2 = true))
      supportedTables :=
    supportedTables_exclusive.imp (fun {a b} h => exclusiveTables_spec a b h)
  refine ⟨supportedTables_exclusive.imp (fun {a b} h => exclusiveTables_disjoint a b h),
    h2, ?_, ?_⟩
  · intro x
    exact filter_length_le_one _ _ (h2.imp (fun {a b} h => h x))
  · intro x
    exact filter_length_le_one _ _
      (nativizeTables_exclusive.imp (fun {a b} h => exclusiveTables_spec a b h x))

/-- C18: when `file_path` includes itself, or includes a file that includes it, or
reaches any cycle of include edges, `GetIncludedFiles(file_path)` returns at no call
depth; when the include graph that can be reached has no cycle it returns, within a
call depth of one more than the number of files. -/
theorem GetIncludedFiles_unbounded_on_cycle (fs : Files) (file_path : List Char) :
    (Includes fs file_path file_path →
        ∀ depth, GetIncludedFiles depth fs file_path = none)
    ∧ (∀ other, Includes fs file_path other → Includes fs other file_path →
        ∀ depth, GetIncludedFiles depth fs file_path = none
          ∧ GetIncludedFiles depth fs other = none)
    ∧ (¬ Acyclic fs file_path → ∀ depth, GetIncludedFiles depth fs file_path = none)
    ∧ (Acyclic fs file_path →
        ∃ result, GetIncludedFiles (fs.length + 1) fs file_path = some result
          ∧ Returns fs file_path result) := by
  refine ⟨?_, ?_, ?_, ?_⟩
  · intro h depth
    exact GetIncludedFiles_none_of_reachesCycle fs depth file_path
      ⟨file_path, Relation.ReflTransGen.refl, Relation.TransGen.single h⟩
  · intro other h1 h2 depth
    have hc1 : Relation.TransGen (Includes fs) file_path file_path :=
      Relation.TransGen.tail (Relation.TransGen.single h1) h2
    have hc2 : Relation.TransGen (Includes fs) other other :=
      Relation.TransGen.tail (Relation.TransGen.single h2) h1
    exact ⟨GetIncludedFiles_none_of_reachesCycle fs depth file_path
        ⟨file_path, Relation.ReflTransGen.refl, hc1⟩,
      GetIncludedFiles_none_of_reachesCycle fs depth other
        ⟨other, Relation.ReflTransGen.refl, hc2⟩⟩
  · intro h depth
    exact GetIncludedFiles_none_of_reachesCycle fs depth file_path
      ((not_acyclic_iff fs file_path).mp h)
  · intro h
    obtain ⟨r, hr⟩ := GetIncludedFiles_terminates fs file_path h
    exact ⟨r, hr, returns_of_eq fs _ file_path r hr⟩

/-- The statement of C18 at a file that includes itself, at two files that include each
other, and at the files of the example. -/
theorem GetIncludedFiles_unbounded_on_cycle_witness :
    Includes selfIncludeFiles "a.txt".toList "a.txt".toList
    ∧ (∀ depth, GetIncludedFiles depth selfIncludeFiles "a.txt".toList = none)
    ∧ Includes mutualIncludeFiles "a.txt".toList "b.txt".toList
    ∧ Includes mutualIncludeFiles "b.txt".toList "a.txt".toList
    ∧ (∀ depth, GetIncludedFiles depth mutualIncludeFiles "a.txt".toList = none
        ∧ GetIncludedFiles depth mutualIncludeFiles "b.txt".toList = none)
    ∧ Acyclic exampleFiles "a.txt".toList
    ∧ (∃ result, GetIncludedFiles (exampleFiles.length + 1) exampleFiles "a.txt".toList
          = some result ∧ Returns exampleFiles "a.txt".toList result) :=
  ⟨by unfold Includes; decide,
   (GetIncludedFiles_unbounded_on_cycle selfIncludeFiles "a.txt".toList).1
     (by unfold Includes; decide),
   by unfold Includes; decide, by unfold Includes; decide,
   (GetIncludedFiles_unbounded_on_cycle mutualIncludeFiles "a.txt".toList).2.1
     "b.txt".toList (by unfold Includes; decide) (by unfold Includes; decide),
   acyclic_of_rankDecreases exampleFiles exampleRank (by decide) _,
   (GetIncludedFiles_unbounded_on_cycle exampleFiles "a.txt".toList).2.2.2
     (acyclic_of_rankDecreases exampleFiles exampleRank (by decide) _)⟩

/-- C19: `GetDirectoryFromFilePath(path)` is a prefix of `path`, what follows it holds
neither `/` nor `\`, it is empty or ends in one of the two, and it is empty exactly
when `path` holds neither. -/
theorem GetDirectoryFromFilePath_through_last_separator (path : List Char) :
    ∃ rest, path = GetDirectoryFromFilePath path ++ rest
      ∧ '/' ∉ rest ∧ '\\' ∉ rest
      ∧ (GetDirectoryFromFilePath path = []
          ∨ ∃ front c, GetDirectoryFromFilePath path = front ++ [c]
              ∧ (c = '/' ∨ c = '\\'))
      ∧ (GetDirectoryFromFilePath path = [] ↔ ('/' ∉ path ∧ '\\' ∉ path)) := by
  unfold GetDirectoryFromFilePath
  cases h : find_last_of path ['\\', '/'] with
  | none =>
    have hn := (find_last_of_eq_none_iff _ _).mp h
    have h1 : '/' ∉ path := fun hm => hn _ hm (by simp)
    have h2 : '\\' ∉ path := fun hm => hn _ hm (by simp)
    exact ⟨path, rfl, h1, h2, Or.inl rfl, ⟨fun _ => ⟨h1, h2⟩, fun _ => rfl⟩⟩
  | some k =>
    obtain ⟨a, c, b, hs, hlen, hc, hb, htake, hdrop⟩ := find_last_of_some_split path _ k h
    have hn := (find_last_of_eq_none_iff _ _).mp hb
    simp only [substr2, List.drop_zero]
    rw [htake]
    refine ⟨b, by rw [hs]; simp, fun hm => hn _ hm (by simp), fun hm => hn _ hm (by simp),
      Or.inr ⟨a, c, rfl, ?_⟩, ?_⟩
    · simp only [List.mem_cons, List.mem_singleton, List.not_mem_nil, or_false] at hc
      tauto
    · constructor
      · intro he; simp at he
      · rintro ⟨h1, h2⟩
        exfalso
        have hcm : c ∈ path := by rw [hs]; simp
        simp only [List.mem_cons, List.mem_singleton, List.not_mem_nil, or_false] at hc
        rcases hc with rfl | rfl
        · exact h2 hcm
        · exact h1 hcm

/-- C20: `GetFileNameNoExtensionFromFilePath(path)` is the part of the file name before
its last `.`, and is empty when the file name has no `.`; in that case
`GetFilePathWithoutExtension(path)`, the directory followed by that part, is the
directory alone. -/
theorem GetFileNameNoExtensionFromFilePath_before_last_dot (pf : Platform)
    (path : List Char) :
    (∀ stem ext, GetFileNameFromFilePath pf path = stem ++ '.' :: ext → '.' ∉ ext →
        GetFileNameNoExtensionFromFilePath pf path = stem)
    ∧ ('.' ∉ GetFileNameFromFilePath pf path →
        GetFileNameNoExtensionFromFilePath pf path = []
          ∧ GetFilePathWithoutExtension pf path = GetDirectoryFromFilePath path)
    ∧ GetFilePathWithoutExtension pf path
        = GetDirectoryFromFilePath path ++ GetFileNameNoExtensionFromFilePath pf path := by
  refine ⟨?_, ?_, rfl⟩
  · intro stem ext hname hext
    unfold GetFileNameNoExtensionFromFilePath
    simp only
    have hnone : find_last_of ext ['.'] = none := by
      rw [find_last_of_eq_none_iff]
      intro c hc hdot
      simp only [List.mem_singleton] at hdot
      exact hext (hdot ▸ hc)
    rw [hname, find_last_of_split stem ext ['.'] '.' (by simp) hnone]
    simp only [substr2, List.drop_zero]
    simp
  · intro hdot
    have hnone : find_last_of (GetFileNameFromFilePath pf path) ['.'] = none := by
      rw [find_last_of_eq_none_iff]
      intro c hc hd
      simp only [List.mem_singleton] at hd
      exact hdot (hd ▸ hc)
    have h1 : GetFileNameNoExtensionFromFilePath pf path = [] := by
      unfold GetFileNameNoExtensionFromFilePath
      simp only
      rw [hnone]
    refine ⟨h1, ?_⟩
    unfold GetFilePathWithoutExtension
    rw [h1, List.append_nil]

/-- The statement of C20 at `C:\pkg\archive.tar.gz` and `C:\pkg\Makefile`. -/
theorem GetFileNameNoExtensionFromFilePath_before_last_dot_witness :
    GetFileNameFromFilePath .windows "C:\\pkg\\archive.tar.gz".toList
        = "archive.tar".toList ++ '.' :: "gz".toList
    ∧ '.' ∉ "gz".toList
    ∧ GetFileNameNoExtensionFromFilePath .windows "C:\\pkg\\archive.tar.gz".toList
        = "archive.tar".toList
    ∧ '.' ∉ GetFileNameFromFilePath .windows "C:\\pkg\\Makefile".toList
    ∧ GetFileNameNoExtensionFromFilePath .windows "C:\\pkg\\Makefile".toList = []
    ∧ GetFilePathWithoutExtension .windows "C:\\pkg\\Makefile".toList = "C:\\pkg\\".toList :=
  ⟨by decide, by decide,
   (GetFileNameNoExtensionFromFilePath_before_last_dot .windows
      "C:\\pkg\\archive.tar.gz".toList).1 "archive.tar".toList "gz".toList (by decide)
      (by decide),
   by decide,
   ((GetFileNameNoExtensionFromFilePath_before_last_dot .windows
      "C:\\pkg\\Makefile".toList).2.1 (by decide)).1,
   by decide⟩

/-- C21: evaluation at the input of the comment. `GetStringAfterExpression` of
`The quick brown fox` and `brown` is ` fox`, with the blank that follows `brown`, and
not `fox` as the comment in the source says; the sibling comment of
`GetStringBeforeExpression` gives its result, `The quick `, with the blank. -/
theorem GetStringAfterExpression_keeps_blank :
    GetStringAfterExpression "The quick brown fox".toList "brown".toList = " fox".toList
    ∧ GetStringAfterExpression "The quick brown fox".toList "brown".toList ≠ "fox".toList
    ∧ GetStringBeforeExpression "The quick brown fox".toList "brown".toList
        = "The quick ".toList := by
  refine ⟨by decide, by decide, by decide⟩

/-- C22: every path that `GetIncludedFiles(file_path)` returns, at whatever call depth,
starts with the directory of `file_path`; when the include graph that can be reached
has no cycle the call returns, with such a result. -/
theorem GetIncludedFiles_under_root_directory (fs : Files) (file_path : List Char) :
    (∀ depth result, GetIncludedFiles depth fs file_path = some result →
        ∀ x ∈ result, GetDirectoryFromFilePath file_path <+: x)
    ∧ (Acyclic fs file_path →
        ∃ result, Returns fs file_path result
          ∧ ∀ x ∈ result, GetDirectoryFromFilePath file_path <+: x) := by
  refine ⟨fun depth result h => GetIncludedFiles_starts fs depth file_path result h, ?_⟩
  intro h
  obtain ⟨r, hr⟩ := GetIncludedFiles_terminates fs file_path h
  exact ⟨r, returns_of_eq fs _ file_path r hr,
    GetIncludedFiles_starts fs _ file_path r hr⟩

/-- The statement of C22 at `shaders/main.hlsl`, whose nested include lies in a
sub-directory. -/
theorem GetIncludedFiles_under_root_directory_witness :
    GetIncludedFiles 3 shaderFiles "shaders/main.hlsl".toList
        = some ["shaders/common/lights.hlsl".toList, "shaders/common/brdf.hlsl".toList]
    ∧ GetDirectoryFromFilePath "shaders/main.hlsl".toList = "shaders/".toList
    ∧ (∀ x ∈ ["shaders/common/lights.hlsl".toList, "shaders/common/brdf.hlsl".toList],
        GetDirectoryFromFilePath "shaders/main.hlsl".toList <+: x)
    ∧ Acyclic shaderFiles "shaders/main.hlsl".toList
    ∧ (∃ result, Returns shaderFiles "shaders/main.hlsl".toList result
        ∧ ∀ x ∈ result, GetDirectoryFromFilePath "shaders/main.hlsl".toList <+: x) :=
  ⟨by decide, by decide,
   (GetIncludedFiles_under_root_directory shaderFiles "shaders/main.hlsl".toList).1 3 _
     (by decide),
   acyclic_of_rankDecreases shaderFiles shaderRank (by decide) _,
   (GetIncludedFiles_under_root_directory shaderFiles "shaders/main.hlsl".toList).2
     (acyclic_of_rankDecreases shaderFiles shaderRank (by decide) _)⟩

/-- C23: when `exp` occurs in `str`, the text before it, `exp` and the text after it
make up `str`, the text before being no longer than what precedes any occurrence of
`exp` (the cut is at the first one); when `exp` does not occur both texts are empty. -/
theorem before_exp_after (str exp : List Char) :
    (exp <:+: str →
      GetStringBeforeExpression str exp ++ exp ++ GetStringAfterExpression str exp = str
      ∧ ∀ a b, str = a ++ exp ++ b → (GetStringBeforeExpression str exp).length ≤ a.length)
    ∧ (¬ exp <:+: str →
      GetStringBeforeExpression str exp = [] ∧ GetStringAfterExpression str exp = []) := by
  constructor
  · intro h
    have hs := (find_isSome_iff_occurs str exp).mpr h
    cases hf : find str exp with
    | none => rw [hf] at hs; simp at hs
    | some pos =>
      obtain ⟨⟨t, ht⟩, hfirst⟩ := find_some_spec str exp pos hf
      have hlen : pos ≤ str.length := by
        by_contra hgt
        have hnil : str.drop pos = [] := List.drop_eq_nil_of_le (by omega)
        rw [hnil] at ht
        have hexp : exp = [] := (List.append_eq_nil.mp ht).1
        have h0 : find str exp = some 0 := by
          unfold find
          rw [hexp]
          simp
        rw [h0] at hf
        simp only [Option.some.injEq] at hf
        omega
      have hbefore : GetStringBeforeExpression str exp = str.take pos := by
        unfold GetStringBeforeExpression
        rw [hf]
        rfl
      have hafter : GetStringAfterExpression str exp = t := by
        unfold GetStringAfterExpression
        rw [hf]
        simp only [substr]
        rw [← List.drop_drop, ← ht]
        exact List.drop_left _ _
      refine ⟨?_, ?_⟩
      · rw [hbefore, hafter, List.append_assoc, ht, List.take_append_drop]
      · intro a b hab
        rw [hbefore, List.length_take, Nat.min_eq_left hlen]
        by_contra hlt
        apply hfirst a.length (by omega)
        rw [hab, List.append_assoc]
        exact ⟨b, by simp⟩
  · intro h
    have hs : find str exp = none := by
      cases hf : find str exp with
      | none => rfl
      | some pos =>
        exact absurd ((find_isSome_iff_occurs str exp).mp (by rw [hf]; rfl)) h
    unfold GetStringBeforeExpression GetStringAfterExpression
    rw [hs]
    exact ⟨rfl, rfl⟩

/-- The statement of C23 at a text with two occurrences of `brown` and at a text without
`green`. -/
theorem before_exp_after_witness :
    "brown".toList <:+: "The quick brown fox, the brown dog".toList
    ∧ GetStringBeforeExpression "The quick brown fox, the brown dog".toList "brown".toList
        ++ "brown".toList
        ++ GetStringAfterExpression "The quick brown fox, the brown dog".toList "brown".toList
        = "The quick brown fox, the brown dog".toList
    ∧ GetStringBeforeExpression "The quick brown fox, the brown dog".toList "brown".toList
        = "The quick ".toList
    ∧ ¬ "green".toList <:+: "The quick brown fox".toList
    ∧ GetStringBeforeExpression "The quick brown fox".toList "green".toList = []
    ∧ GetStringAfterExpression "The quick brown fox".toList "green".toList = [] :=
  ⟨(find_isSome_iff_occurs _ _).mp (by decide),
   ((before_exp_after "The quick brown fox, the brown dog".toList "brown".toList).1
      ((find_isSome_iff_occurs _ _).mp (by decide))).1,
   by decide,
   fun h => absurd ((find_isSome_iff_occurs _ _).mpr h) (by decide),
   ((before_exp_after "The quick brown fox".toList "green".toList).2
      (fun h => absurd ((find_isSome_iff_occurs _ _).mpr h) (by decide))).1,
   ((before_exp_after "The quick brown fox".toList "green".toList).2
      (fun h => absurd ((find_isSome_iff_occurs _ _).mpr h) (by decide))).2⟩

end FileSystem

end Spartan
